import Mathlib

/-!
Verification development for the background-task orchestrator
(`BackgroundTaskManager` and its delegation/fallback helpers).

The TypeScript source is shallowly embedded:
* pure helpers (`parseModelReference`, `resolveFallbackChain`, message
  extraction, the delegation tables) become Lean functions;
* the stateful manager becomes an explicit `Manager` record, its methods
  become state-transformer functions, and the cooperative (single-threaded,
  await-interleaved) execution of `startTask` is split at its suspension
  points into an explicit `Step` relation whose labels carry the host
  responses (session-creation results, prompt outcomes, inbound events);
* wall-clock timestamps are abstracted as a constant logical clock, and
  the random task-id generator is abstracted as a fresh counter;
* best-effort external I/O (session abort, parent notification, waiter
  resolution) is recorded in append-only logs inside the state.
-/

namespace OMOS

/-! ## Delegation policy (src/config/constants.ts) -/

/-- The subagent roster, from `SUBAGENT_NAMES`. -/
def SUBAGENT_NAMES : List String :=
  ["explorer", "librarian", "oracle", "designer", "fixer"]

/-- The configured delegation table, from `SUBAGENT_DELEGATION_RULES`.
`none` models a role absent from the table. -/
def SUBAGENT_DELEGATION_RULES (agentName : String) : Option (List String) :=
  if agentName = "orchestrator" then some SUBAGENT_NAMES
  else if agentName = "fixer" then some []
  else if agentName = "designer" then some []
  else if agentName = "explorer" then some []
  else if agentName = "librarian" then some []
  else if agentName = "oracle" then some []
  else none

/-- `BackgroundTaskManager.getSubagentRules`: unknown roles default to
explorer-only access. -/
def getSubagentRules (agentName : String) : List String :=
  (SUBAGENT_DELEGATION_RULES agentName).getD ["explorer"]

/-- `BackgroundTaskManager.calculateToolPermissions`: the pair is
`(background_task, task)`. -/
def calculateToolPermissions (agentName : String) : Bool × Bool :=
  let allowedSubagents := getSubagentRules agentName
  if allowedSubagents.length = 0 then (false, false) else (true, true)

/-! ## Model-reference parsing -/

/-- Core of `parseModelReference`, on the character list of the input.
`List.findIdx?` plays the role of `String.prototype.indexOf` (first
occurrence); the guard mirrors `slashIndex <= 0 || slashIndex >= model.length - 1`
(the JavaScript `-1` not-found case is the `none` branch here). -/
def parseChars (l : List Char) : Option (List Char × List Char) :=
  match l.findIdx? (fun c => c = '/') with
  | none => none
  | some i =>
    if i = 0 ∨ l.length ≤ i + 1 then none
    else some (l.take i, l.drop (i + 1))

/-- `parseModelReference`: split `provider/model` at the first slash,
failing when the slash is missing, leading, or trailing. -/
def parseModelReference (s : String) : Option (String × String) :=
  (parseChars s.data).map (fun pm => (String.mk pm.1, String.mk pm.2))

/-! ## Fallback resolver -/

/-- Loop body of `resolveFallbackChain`: walk the candidates, skipping
null (`none`) entries, empty strings (JavaScript falsiness of `!model`)
and already-seen models; `acc` plays both the `chain` and the `seen` roles
(they always hold the same elements). -/
def resolveFallbackChainGo : List (Option String) → List String → List String
  | [], acc => acc
  | mo :: rest, acc =>
    match mo with
    | none => resolveFallbackChainGo rest acc
    | some model =>
      if model = "" ∨ acc.contains model then resolveFallbackChainGo rest acc
      else resolveFallbackChainGo rest (acc ++ [model])

/-- `BackgroundTaskManager.resolveFallbackChain`: the role's configured
primary model followed by its configured fallback chain, de-duplicated in
first-seen order. -/
def resolveFallbackChain (primary : Option String)
    (configuredChain : List (Option String)) : List String :=
  resolveFallbackChainGo (primary :: configuredChain) []

/-! ## Session messages and result extraction -/

/-- A typed message part (`{ type: string; text?: string }`). -/
structure MessagePart where
  type : String
  text : Option String
deriving DecidableEq, Repr

/-- A session message; `role` is `info?.role` (absent info gives `none`),
`parts` is `parts ?? []`. -/
structure SessionMessage where
  role : Option String
  parts : List MessagePart
deriving DecidableEq, Repr

/-- The `extractedContent` accumulation of `extractAndCompleteTask`:
text of every `text`/`reasoning` part with truthy `text`, over
assistant-authored messages, in message then part order. -/
def extractedContent (messages : List SessionMessage) : List String :=
  (messages.filter (fun mm => mm.role = some "assistant")).flatMap
    (fun mm => mm.parts.filterMap (fun p =>
      if (p.type = "text" ∨ p.type = "reasoning") ∧ p.text ≠ none ∧ p.text ≠ some "" then
        p.text
      else none))

/-- The `responseText` computation: join the non-empty fragments with
blank-line separators. -/
def responseText (messages : List SessionMessage) : String :=
  String.intercalate "\n\n" ((extractedContent messages).filter (fun t => 0 < t.length))

/-- Modelled from the spec (refinement reference for the claim about
result extraction): the concatenation, in message order then part order,
of every non-empty text or reasoning part of assistant-authored messages,
joined with blank-line separators. -/
def specAssistantConcat (messages : List SessionMessage) : String :=
  String.intercalate "\n\n"
    ((messages.filter (fun mm => mm.role = some "assistant")).flatMap (fun mm =>
      mm.parts.filterMap (fun p =>
        match p.text with
        | some s => if (p.type = "text" ∨ p.type = "reasoning") ∧ s ≠ "" then some s else none
        | none => none)))

/-! ## Task records and manager state -/

/-- Task lifecycle states. -/
inductive TaskStatus
  | pending
  | starting
  | running
  | completed
  | failed
  | cancelled
deriving DecidableEq, Repr

/-- The `BackgroundTask` record. Task ids are naturals (the random
`bg_...` generator is abstracted as a fresh counter), session ids stay
strings, timestamps are logical. `configMaxConcurrentStarts` is the
`config.maxConcurrentStarts` snapshot carried on the task. -/
structure BackgroundTask where
  id : Nat
  sessionId : Option String
  description : String
  agent : String
  status : TaskStatus
  result : Option String
  error : Option String
  parentSessionId : String
  startedAt : Nat
  completedAt : Option Nat
  prompt : String
  configMaxConcurrentStarts : Nat
deriving DecidableEq, Repr

/-- The plugin configuration surface the manager reads: the global
fallback toggle, the per-role fallback chains (`fallback.chains`, absent
roles giving `[]`), and the per-role primary model (`agents[role].model`). -/
structure PluginConfig where
  fallbackEnabled : Bool
  chains : String → List String
  agentModel : String → Option String

/-- The phase of an in-flight `startTask` invocation, split at its
`await` suspension points: `creating` is awaiting `session.create`;
`prompting cur rest errors` is awaiting the prompt attempt for candidate
`cur` (`none` = the default model), with `rest` still to try and
`errors` the per-attempt failures recorded so far. The optional tmux
delay and the message-history fetch are folded into the adjacent steps. -/
inductive StartPhase
  | creating
  | prompting (current : Option String) (rest : List (Option String)) (errors : List String)
deriving DecidableEq, Repr

/-- One in-flight `startTask` invocation. -/
structure Flight where
  taskId : Nat
  phase : StartPhase
deriving DecidableEq, Repr

/-- The `BackgroundTaskManager` state. Maps become association lists,
`completionResolvers` becomes the set of task ids holding a registered
waiter, and the externally observable effects (waiter resolutions,
session aborts, parent notifications) are recorded in append-only logs;
a resolution entry carries the value the waiting promise receives. -/
structure Manager where
  config : PluginConfig
  tmuxEnabled : Bool
  maxConcurrentStarts : Nat
  tasks : List (Nat × BackgroundTask)
  tasksBySessionId : List (String × Nat)
  agentBySessionId : List (String × String)
  startQueue : List Nat
  activeStarts : Nat
  completionResolvers : List Nat
  flights : List Flight
  nextId : Nat
  now : Nat
  resolutionLog : List (Nat × Option BackgroundTask)
  abortLog : List String
  notifyLog : List (String × String)

/-- A fresh manager, as built by the constructor. -/
def initManager (config : PluginConfig) (tmuxEnabled : Bool)
    (maxConcurrentStarts : Nat) : Manager :=
  { config := config
    tmuxEnabled := tmuxEnabled
    maxConcurrentStarts := maxConcurrentStarts
    tasks := []
    tasksBySessionId := []
    agentBySessionId := []
    startQueue := []
    activeStarts := 0
    completionResolvers := []
    flights := []
    nextId := 0
    now := 0
    resolutionLog := []
    abortLog := []
    notifyLog := [] }

/-- Registry lookup (`this.tasks.get(taskId)`). -/
def lookupTask (m : Manager) (tid : Nat) : Option BackgroundTask :=
  (m.tasks.find? (fun p => p.1 = tid)).map (fun p => p.2)

/-- Status projection of the registry record. -/
def statusOf (m : Manager) (tid : Nat) : Option TaskStatus :=
  (lookupTask m tid).map (fun t => t.status)

/-- In-place mutation of the task object with the given id (the source
mutates the record shared by reference between the registry, the queue
and in-flight starts; here all aliases read through the registry). -/
def updateTask (m : Manager) (tid : Nat) (f : BackgroundTask → BackgroundTask) : Manager :=
  { m with tasks := m.tasks.map (fun p => (p.1, if p.1 = tid then f p.2 else p.2)) }

/-! ## Delegation operations over the manager state -/

/-- `BackgroundTaskManager.isAgentAllowed`: untracked parent sessions
resolve to the root `orchestrator` role. -/
def isAgentAllowed (m : Manager) (parentSessionId : String) (requestedAgent : String) : Bool :=
  let parentAgentName :=
    (((m.agentBySessionId.find? (fun p => p.1 = parentSessionId)).map (fun p => p.2)).getD
      "orchestrator")
  let allowedSubagents := getSubagentRules parentAgentName
  if allowedSubagents.length = 0 then false
  else allowedSubagents.contains requestedAgent

/-- `BackgroundTaskManager.getAllowedSubagents`. -/
def getAllowedSubagents (m : Manager) (parentSessionId : String) : List String :=
  let parentAgentName :=
    (((m.agentBySessionId.find? (fun p => p.1 = parentSessionId)).map (fun p => p.2)).getD
      "orchestrator")
  getSubagentRules parentAgentName

/-! ## Terminal handling -/

/-- The terminal mutation `completeTask` performs on the task record:
status, completion timestamp, and result on `completed`, error otherwise. -/
def terminalize (now : Nat) (t : BackgroundTask) (st : TaskStatus)
    (resultOrError : String) : BackgroundTask :=
  { t with
    status := st
    completedAt := some now
    result := if st = .completed then some resultOrError else t.result
    error := if st = .completed then t.error else some resultOrError }

/-- The parent notification text of `sendCompletionNotification`
(an absent error renders as the JavaScript string `undefined`). -/
def notificationMessage (t : BackgroundTask) : String :=
  if t.status = .completed then
    "[Background task \"" ++ t.description ++ "\" completed]"
  else
    "[Background task \"" ++ t.description ++ "\" failed: " ++ t.error.getD "undefined" ++ "]"

/-- `BackgroundTaskManager.completeTask`: no-op when the status is
already `completed` or `failed` (deliberately not `cancelled`); otherwise
record the terminal fields, drop both session indexes, abort the session
(best effort), notify a truthy parent session, and resolve-and-remove a
registered waiter. -/
def completeTask (m : Manager) (tid : Nat) (st : TaskStatus) (resultOrError : String) : Manager :=
  match lookupTask m tid with
  | none => m
  | some t =>
    if t.status = .completed ∨ t.status = .failed then m
    else
      let t1 := terminalize m.now t st resultOrError
      let m1 := updateTask m tid (fun _ => t1)
      let m2 :=
        match t1.sessionId with
        | some sid =>
          { m1 with
            tasksBySessionId := m1.tasksBySessionId.filter (fun p => p.1 ≠ sid)
            agentBySessionId := m1.agentBySessionId.filter (fun p => p.1 ≠ sid)
            abortLog := m1.abortLog ++ [sid] }
        | none => m1
      let m3 :=
        if t1.parentSessionId ≠ "" then
          { m2 with notifyLog := m2.notifyLog ++ [(t1.parentSessionId, notificationMessage t1)] }
        else m2
      if m3.completionResolvers.contains tid then
        { m3 with
          resolutionLog := m3.resolutionLog ++ [(tid, some t1)]
          completionResolvers := m3.completionResolvers.filter (fun x => x ≠ tid) }
      else m3

/-! ## Start queue, admission and the start sequence -/

/-- The synchronous prefix of `startTask`: set the status to `starting`,
increment the active-start counter, then check for a cancelled status
(the source's race check). The short-circuit branch calls `completeTask`
and returns before the `try/finally`, so it creates no flight and never
decrements the counter; the normal branch records the in-flight
`session.create`. -/
def startTaskEntry (m : Manager) (tid : Nat) : Manager :=
  let m1 := updateTask m tid (fun t => { t with status := .starting })
  let m2 := { m1 with activeStarts := m1.activeStarts + 1 }
  if (lookupTask m1 tid).map (fun t => t.status) = some .cancelled then
    completeTask m2 tid .cancelled "Task cancelled before start"
  else
    { m2 with flights := m2.flights ++ [⟨tid, .creating⟩] }

/-- One pass of the `processQueue` while-loop, with explicit fuel (the
loop shifts one element per iteration and never pushes, so the initial
queue length is enough fuel). -/
def processQueueAux : Nat → Manager → Manager
  | 0, m => m
  | fuel + 1, m =>
    if m.activeStarts < m.maxConcurrentStarts then
      match m.startQueue with
      | [] => m
      | tid :: rest => processQueueAux fuel (startTaskEntry { m with startQueue := rest } tid)
    else m

/-- `BackgroundTaskManager.processQueue`. -/
def processQueue (m : Manager) : Manager :=
  processQueueAux m.startQueue.length m

/-- Options of `launch`. -/
structure LaunchOptions where
  agent : String
  prompt : String
  description : String
  parentSessionId : String

/-- `BackgroundTaskManager.launch` (phase A): allocate a pending task,
register it, enqueue it, and trigger queue processing; the caller gets
the task back immediately. -/
def launch (m : Manager) (opts : LaunchOptions) : Manager :=
  let tid := m.nextId
  let task : BackgroundTask :=
    { id := tid
      sessionId := none
      description := opts.description
      agent := opts.agent
      status := .pending
      result := none
      error := none
      parentSessionId := opts.parentSessionId
      startedAt := m.now
      completedAt := none
      prompt := opts.prompt
      configMaxConcurrentStarts := m.maxConcurrentStarts }
  let m1 := { m with nextId := tid + 1, tasks := m.tasks ++ [(tid, task)] }
  processQueue { m1 with startQueue := m1.startQueue ++ [tid] }

/-- The attempt list of the fallback loop: the resolved chain when
fallback is enabled and non-empty, otherwise the single default-model
attempt (`[undefined]`). -/
def attemptModels (m : Manager) (agent : String) : List (Option String) :=
  let chain :=
    if m.config.fallbackEnabled then
      resolveFallbackChain (m.config.agentModel agent) ((m.config.chains agent).map some)
    else []
  if chain ≠ [] then chain.map some else [none]

/-- The synchronous stretch of the fallback loop between suspension
points: peel candidates whose model reference fails to parse (each is
recorded as a per-attempt error and the loop advances), stopping at the
first candidate that reaches the awaited prompt call (`inr`) or at
exhaustion (`inl`, with the final error list). -/
def peelAttempts : List (Option String) → List String →
    (List String) ⊕ (Option String × List (Option String) × List String)
  | [], errors => Sum.inl errors
  | mo :: rest, errors =>
    match mo with
    | some model =>
      match parseModelReference model with
      | none =>
        peelAttempts rest (errors ++ [model ++ ": " ++ "Invalid fallback model format: " ++ model])
      | some _ => Sum.inr (some model, rest, errors)
    | none => Sum.inr (none, rest, errors)

/-- The `finally` block of `startTask`: decrement the active-start
counter and re-trigger queue processing. -/
def finishStart (m : Manager) : Manager :=
  processQueue { m with activeStarts := m.activeStarts - 1 }

/-- Resume the fallback loop on the given remaining candidates: either
suspend on the next prompt attempt, or exhaust the chain, failing the
task with the aggregated error and running the `finally` block. -/
def startAttempting (m : Manager) (tid : Nat) (models : List (Option String))
    (errors : List String) : Manager :=
  match peelAttempts models errors with
  | Sum.inl finalErrors =>
    finishStart
      (completeTask m tid .failed
        ("All fallback models failed. " ++ String.intercalate " | " finalErrors))
  | Sum.inr (cur, rest, errs) =>
    { m with flights := m.flights ++ [⟨tid, .prompting cur rest errs⟩] }

/-- Remove the in-flight record for a task. -/
def removeFlight (m : Manager) (tid : Nat) : Manager :=
  { m with flights := m.flights.filter (fun f => f.taskId ≠ tid) }

/-- Resumption of `startTask` when `session.create` resolves.
`Except.ok none` is a response without a session id (the source throws
`Failed to create background session`, landing in the catch block);
`Except.error` is a rejection. On success the session id and both
indexes are recorded, the status is set to `running` (the source does
this without re-checking for cancellation), and the fallback loop
starts. -/
def stepCreateResolved (m : Manager) (tid : Nat) (res : Except String (Option String)) : Manager :=
  let m0 := removeFlight m tid
  match res with
  | Except.ok (some sid) =>
    let agent := ((lookupTask m0 tid).map (fun t => t.agent)).getD ""
    let m1 := updateTask m0 tid (fun t => { t with sessionId := some sid })
    let m2 :=
      { m1 with
        tasksBySessionId := m1.tasksBySessionId ++ [(sid, tid)]
        agentBySessionId := m1.agentBySessionId ++ [(sid, agent)] }
    let m3 := updateTask m2 tid (fun t => { t with status := .running })
    startAttempting m3 tid (attemptModels m3 agent) []
  | Except.ok none =>
    finishStart (completeTask m0 tid .failed "Failed to create background session")
  | Except.error msg =>
    finishStart (completeTask m0 tid .failed msg)

/-- Outcome of one awaited prompt attempt (a timeout rejection is a
`failure` with the timeout message). -/
inductive AttemptOutcome
  | success
  | failure (msg : String)
deriving DecidableEq, Repr

/-- Resumption of `startTask` when a prompt attempt settles: success
breaks the loop and runs the `finally` block; failure records the
per-attempt error (named after the model, or `default-model`) and
advances the loop. -/
def stepPromptResolved (m : Manager) (tid : Nat) (cur : Option String)
    (rest : List (Option String)) (errors : List String) (outcome : AttemptOutcome) : Manager :=
  let m0 := removeFlight m tid
  match outcome with
  | AttemptOutcome.success => finishStart m0
  | AttemptOutcome.failure msg =>
    let entry :=
      match cur with
      | some model => model ++ ": " ++ msg
      | none => "default-model: " ++ msg
    startAttempting m0 tid rest (errors ++ [entry])

/-! ## Event handlers -/

/-- `BackgroundTaskManager.extractAndCompleteTask`; `fetch` is the
awaited `session.messages` response. -/
def extractAndCompleteTask (m : Manager) (tid : Nat)
    (fetch : Except String (List SessionMessage)) : Manager :=
  match lookupTask m tid with
  | none => m
  | some t =>
    match t.sessionId with
    | none => m
    | some _ =>
      match fetch with
      | Except.error msg => completeTask m tid .failed msg
      | Except.ok messages =>
        let rt := responseText messages
        if rt ≠ "" then completeTask m tid .completed rt
        else completeTask m tid .completed "(No output)"

/-- `BackgroundTaskManager.handleSessionStatus`: only `session.status`
events with a session id mapping to a task that is still `running` are
considered; an `idle` status triggers extraction. -/
def handleSessionStatus (m : Manager) (eventType : String) (sid : Option String)
    (statusType : Option String) (fetch : Except String (List SessionMessage)) : Manager :=
  if eventType ≠ "session.status" then m
  else
    match sid with
    | none => m
    | some s =>
      match (m.tasksBySessionId.find? (fun p => p.1 = s)).map (fun p => p.2) with
      | none => m
      | some tid =>
        match lookupTask m tid with
        | none => m
        | some t =>
          if t.status ≠ .running then m
          else if statusType = some "idle" then extractAndCompleteTask m tid fetch
          else m

/-- `BackgroundTaskManager.handleSessionDeleted`: a deletion event for a
tracked session whose task is still `running` or `pending` marks the
task cancelled with error `Session deleted`, drops both session indexes,
and resolves-and-removes any registered waiter directly (without going
through `completeTask`). -/
def handleSessionDeleted (m : Manager) (sid : String) : Manager :=
  match (m.tasksBySessionId.find? (fun p => p.1 = sid)).map (fun p => p.2) with
  | none => m
  | some tid =>
    match lookupTask m tid with
    | none => m
    | some t =>
      if t.status = .running ∨ t.status = .pending then
        let t1 := { t with status := .cancelled, completedAt := some m.now,
                           error := some "Session deleted" }
        let m1 := updateTask m tid (fun _ => t1)
        let m2 :=
          { m1 with
            tasksBySessionId := m1.tasksBySessionId.filter (fun p => p.1 ≠ sid)
            agentBySessionId := m1.agentBySessionId.filter (fun p => p.1 ≠ sid) }
        if m2.completionResolvers.contains tid then
          { m2 with
            resolutionLog := m2.resolutionLog ++ [(tid, some t1)]
            completionResolvers := m2.completionResolvers.filter (fun x => x ≠ tid) }
        else m2
      else m

/-! ## Cancellation and waiting -/

/-- The per-task body shared by both branches of `cancel`: for a
pending/starting/running task, drop any registered waiter (without
resolving it), mark the status cancelled first, remove a pending task
from the start queue, then run the shared terminal routine. -/
def cancelTaskStep (m : Manager) (tid : Nat) : Manager × Nat :=
  match lookupTask m tid with
  | none => (m, 0)
  | some t =>
    if t.status = .pending ∨ t.status = .starting ∨ t.status = .running then
      let m1 := { m with completionResolvers := m.completionResolvers.filter (fun x => x ≠ tid) }
      let inStartQueue := t.status = .pending
      let m2 := updateTask m1 tid (fun u => { u with status := .cancelled })
      let m3 := if inStartQueue then { m2 with startQueue := m2.startQueue.erase tid } else m2
      (completeTask m3 tid .cancelled "Cancelled by user", 1)
    else (m, 0)

/-- `BackgroundTaskManager.cancel`: one task by id, or every currently
pending/starting/running task (iterating the registry in insertion
order), returning the count cancelled. -/
def cancel (m : Manager) (taskId : Option Nat) : Manager × Nat :=
  match taskId with
  | some tid => cancelTaskStep m tid
  | none =>
    (m.tasks.map (fun p => p.1)).foldl
      (fun acc tid =>
        let r := cancelTaskStep acc.1 tid
        (r.1, acc.2 + r.2))
      (m, 0)

/-- The synchronous head of `waitForCompletion`: `some (some t)` when
the task is already terminal (returned immediately), `some none` when
the id is unknown (null returned immediately), `none` when the caller
registers a waiter and blocks. -/
def waitImmediateResult (m : Manager) (tid : Nat) : Option (Option BackgroundTask) :=
  match lookupTask m tid with
  | none => some none
  | some t =>
    if t.status = .completed ∨ t.status = .failed ∨ t.status = .cancelled then some (some t)
    else none

/-- Registration of the completion resolver (`Map.set`: one waiter per
task id, last registration wins — presence-wise, idempotent). -/
def registerWaiter (m : Manager) (tid : Nat) : Manager :=
  if m.completionResolvers.contains tid then m
  else { m with completionResolvers := m.completionResolvers ++ [tid] }

/-- The timeout callback of `waitForCompletion`: delete the resolver and
resolve the waiting promise with `this.tasks.get(taskId) ?? null` (the
current record, or null when absent). -/
def waitTimeoutFire (m : Manager) (tid : Nat) : Manager :=
  { m with
    completionResolvers := m.completionResolvers.filter (fun x => x ≠ tid)
    resolutionLog := m.resolutionLog ++ [(tid, lookupTask m tid)] }

/-! ## The step relation -/

/-- One atomic synchronous step of the cooperatively scheduled manager:
a public API call, an inbound host event, or the resumption of an
in-flight `startTask` at one of its suspension points with the host's
response. -/
inductive Step : Manager → Manager → Prop
  | launch (m : Manager) (opts : LaunchOptions) : Step m (OMOS.launch m opts)
  | cancel (m : Manager) (taskId : Option Nat) : Step m (OMOS.cancel m taskId).1
  | sessionDeleted (m : Manager) (sid : String) : Step m (handleSessionDeleted m sid)
  | sessionStatus (m : Manager) (eventType : String) (sid : Option String)
      (statusType : Option String) (fetch : Except String (List SessionMessage)) :
      Step m (handleSessionStatus m eventType sid statusType fetch)
  | createResolved (m : Manager) (tid : Nat) (res : Except String (Option String))
      (h : Flight.mk tid .creating ∈ m.flights) :
      Step m (stepCreateResolved m tid res)
  | promptResolved (m : Manager) (tid : Nat) (cur : Option String)
      (rest : List (Option String)) (errors : List String) (outcome : AttemptOutcome)
      (h : Flight.mk tid (.prompting cur rest errors) ∈ m.flights) :
      Step m (stepPromptResolved m tid cur rest errors outcome)
  | waitRegister (m : Manager) (tid : Nat) (h : waitImmediateResult m tid = none) :
      Step m (registerWaiter m tid)
  | waitTimeout (m : Manager) (tid : Nat) : Step m (waitTimeoutFire m tid)

/-- Reachability from an initial manager. -/
def Reachable (m0 m : Manager) : Prop := Relation.ReflTransGen Step m0 m

/-- The number of tasks currently in `starting` status. -/
def countStarting (m : Manager) : Nat :=
  (m.tasks.filter (fun p => p.2.status = .starting)).length

/-- The ids of the tasks currently in `starting` status. -/
def startingIds (m : Manager) : List Nat :=
  (m.tasks.filter (fun p => p.2.status = .starting)).map (fun p => p.1)

/-- The inductive invariant of the step relation for a concurrency
ceiling `N`: the ceiling is constant; registry ids, queued ids and
in-flight task ids are duplicate-free; queued tasks have no in-flight
start; every `starting` task has an in-flight `session.create`; the
number of in-flight starts is bounded by the active-start counter, which
never exceeds the ceiling; and all tracked ids are below the fresh-id
counter. -/
structure Inv (N : Nat) (m : Manager) : Prop where
  max_eq : m.maxConcurrentStarts = N
  tasks_nodup : (m.tasks.map (fun p => p.1)).Nodup
  queue_nodup : m.startQueue.Nodup
  flights_nodup : (m.flights.map Flight.taskId).Nodup
  queue_flight_disjoint : ∀ tid ∈ m.startQueue, tid ∉ m.flights.map Flight.taskId
  starting_flight : ∀ p ∈ m.tasks, p.2.status = TaskStatus.starting →
    Flight.mk p.1 StartPhase.creating ∈ m.flights
  flights_le : m.flights.length ≤ m.activeStarts
  active_le : m.activeStarts ≤ m.maxConcurrentStarts
  tasks_lt : ∀ p ∈ m.tasks, p.1 < m.nextId
  queue_lt : ∀ tid ∈ m.startQueue, tid < m.nextId
  flights_lt : ∀ f ∈ m.flights, f.taskId < m.nextId

/-! ## Concrete states used by counterexamples and witnesses -/

/-- A minimal configuration: fallback enabled, no chains, no primary
models configured. -/
def cfgDefault : PluginConfig :=
  { fallbackEnabled := true, chains := fun _ => [], agentModel := fun _ => none }

/-- Launch options used by the concrete runs. -/
def optsA : LaunchOptions :=
  { agent := "explorer", prompt := "p", description := "d", parentSessionId := "root" }

/-- Run: a fresh manager (ceiling 10) with one task launched; the task
is admitted immediately, so it is `starting` with an in-flight
`session.create`. -/
def traceM1 : Manager := launch (initManager cfgDefault false 10) optsA

/-- Run continued: the caller cancels task 0 while its start is
in flight; the status becomes `cancelled` with error `Cancelled by user`. -/
def traceM2 : Manager := (cancel traceM1 (some 0)).1

/-- Run continued: `session.create` then resolves successfully and the
resumed `startTask` body executes on the already-cancelled task. -/
def traceM3 : Manager := stepCreateResolved traceM2 0 (Except.ok (some "sess1"))

/-- Two assistant messages with text parts `A` and `B`. -/
def msgsAB : List SessionMessage :=
  [{ role := some "assistant", parts := [{ type := "text", text := some "A" }] },
   { role := some "assistant", parts := [{ type := "text", text := some "B" }] }]

/-- Run continued: the session goes idle and extraction completes the
(previously cancelled) task. -/
def traceM4 : Manager :=
  handleSessionStatus traceM3 "session.status" (some "sess1") (some "idle") (Except.ok msgsAB)

/-- A task record already in `cancelled` status, for invoking the start
sequence on a cancelled task. -/
def cancelledTask : BackgroundTask :=
  { id := 0
    sessionId := none
    description := "d"
    agent := "explorer"
    status := .cancelled
    result := none
    error := none
    parentSessionId := "root"
    startedAt := 0
    completedAt := none
    prompt := "p"
    configMaxConcurrentStarts := 10 }

/-- A manager holding only `cancelledTask`. -/
def cancelledMgr : Manager :=
  { initManager cfgDefault false 10 with tasks := [(0, cancelledTask)] }

/-- Run: a waiter is registered on the still-starting task 0. -/
def waitM1 : Manager := registerWaiter traceM1 0

/-- A manager whose session index maps `s1` to the `fixer` role (a role
with an empty delegation roster). -/
def fixerMgr : Manager :=
  { initManager cfgDefault false 10 with agentBySessionId := [("s1", "fixer")] }

/-- Run (ceiling 1): two tasks launched; task 0 is admitted and
`starting`, task 1 waits in the queue. -/
def ceilM2 : Manager := launch (launch (initManager cfgDefault false 1) optsA) optsA

/-- Run continued: task 0's `session.create` fails, so its start
finishes (the task fails), the counter drops, and queue processing
admits task 1. -/
def ceilM3 : Manager := stepCreateResolved ceilM2 0 (Except.error "boom")

/-- A task record that already completed. -/
def doneTask : BackgroundTask :=
  { cancelledTask with id := 5, status := .completed, result := some "r", completedAt := some 0 }

/-- A manager holding only the completed `doneTask`. -/
def doneMgr : Manager :=
  { initManager cfgDefault false 10 with tasks := [(5, doneTask)] }

/-- A running task with a live session `sr`. -/
def runTask : BackgroundTask :=
  { cancelledTask with id := 3, status := .running, sessionId := some "sr" }

/-- A manager holding `runTask` with its session index and a registered
completion waiter. -/
def runMgr : Manager :=
  { initManager cfgDefault false 10 with
    tasks := [(3, runTask)]
    tasksBySessionId := [("sr", 3)]
    agentBySessionId := [("sr", "explorer")]
    completionResolvers := [3] }

end OMOS

namespace OMOS

/-! ## Supporting lemmas -/

/-- Registry lookup after an in-place update of the same id. -/
theorem lookupTask_updateTask_self (m : Manager) (tid : Nat)
    (f : BackgroundTask → BackgroundTask) :
    lookupTask (updateTask m tid f) tid = (lookupTask m tid).map f := by
  simp only [lookupTask, updateTask]
  induction m.tasks with
  | nil => rfl
  | cons p rest ih =>
    by_cases h : p.1 = tid
    · simp [List.find?_cons, h]
    · simpa [List.find?_cons, h] using ih

/-- Filtering an id out of a list makes `contains` false for it. -/
theorem contains_filter_ne_self (l : List Nat) (tid : Nat) :
    (l.filter (fun x => x ≠ tid)).contains tid = false := by
  induction l with
  | nil => rfl
  | cons a l ih =>
    by_cases h : a = tid
    · simp [List.filter_cons, h, ih]
    · simp [List.filter_cons, h, List.contains_cons, bne_iff_ne, Ne.symm h, ih]

/-- Effects of `completeTask` when no waiter is registered: the
resolution log and the resolver set are untouched. -/
theorem completeTask_no_waiter (m : Manager) (tid : Nat) (st : TaskStatus) (msg : String)
    (h : m.completionResolvers.contains tid = false) :
    (completeTask m tid st msg).resolutionLog = m.resolutionLog ∧
    (completeTask m tid st msg).completionResolvers = m.completionResolvers := by
  unfold completeTask
  cases hl : lookupTask m tid with
  | none => exact ⟨rfl, rfl⟩
  | some t =>
    have hmem : tid ∉ m.completionResolvers := by simpa using h
    by_cases hg : t.status = .completed ∨ t.status = .failed
    · simp [hg]
    · simp only [hg, if_false]
      cases hsid : (terminalize m.now t st msg).sessionId <;>
        by_cases hp : (terminalize m.now t st msg).parentSessionId ≠ "" <;>
          simp [updateTask, hsid, hp, hmem]

/-- Effects of `completeTask` when a waiter is registered and the
terminal guard passes: the waiter is resolved exactly once with the
terminal record and removed. -/
theorem completeTask_with_waiter (m : Manager) (tid : Nat) (t : BackgroundTask)
    (st : TaskStatus) (msg : String)
    (hl : lookupTask m tid = some t)
    (hg : ¬(t.status = .completed ∨ t.status = .failed))
    (h : m.completionResolvers.contains tid = true) :
    (completeTask m tid st msg).resolutionLog
      = m.resolutionLog ++ [(tid, some (terminalize m.now t st msg))] ∧
    (completeTask m tid st msg).completionResolvers
      = m.completionResolvers.filter (fun x => x ≠ tid) := by
  have hmem : tid ∈ m.completionResolvers := by simpa using h
  unfold completeTask
  rw [hl]
  simp only [hg, if_false]
  cases hsid : (terminalize m.now t st msg).sessionId <;>
    by_cases hp : (terminalize m.now t st msg).parentSessionId ≠ "" <;>
      simp [updateTask, hsid, hp, hmem]

/-- Registry record after `completeTask` when the terminal guard passes. -/
theorem completeTask_lookup (m : Manager) (tid : Nat) (t : BackgroundTask)
    (st : TaskStatus) (msg : String)
    (hl : lookupTask m tid = some t)
    (hg : ¬(t.status = .completed ∨ t.status = .failed)) :
    lookupTask (completeTask m tid st msg) tid = some (terminalize m.now t st msg) := by
  unfold completeTask
  rw [hl]
  simp only [hg, if_false]
  have hbase : lookupTask (updateTask m tid (fun _ => terminalize m.now t st msg)) tid
      = some (terminalize m.now t st msg) := by
    rw [lookupTask_updateTask_self, hl]; rfl
  cases hsid : (terminalize m.now t st msg).sessionId <;>
    by_cases hp : (terminalize m.now t st msg).parentSessionId ≠ "" <;>
      by_cases hc : (m.completionResolvers.contains tid) = true <;>
        simp_all [lookupTask, updateTask, hsid, hp, hc]

/-- A non-empty string has positive length. -/
theorem length_pos_of_ne_empty (s : String) (h : s ≠ "") : 0 < s.length := by
  obtain ⟨data⟩ := s
  cases data with
  | nil => exact absurd rfl h
  | cons c cs => simp [String.length]

/-- Every fragment collected by `extractedContent` is non-empty (the
truthiness check on `part.text` excludes empty strings). -/
theorem mem_extractedContent_ne_empty (messages : List SessionMessage) (t : String)
    (ht : t ∈ extractedContent messages) : t ≠ "" := by
  unfold extractedContent at ht
  rw [List.mem_flatMap] at ht
  obtain ⟨mm, _, hpart⟩ := ht
  rw [List.mem_filterMap] at hpart
  obtain ⟨p, _, hfp⟩ := hpart
  by_cases hc : (p.type = "text" ∨ p.type = "reasoning") ∧ p.text ≠ none ∧ p.text ≠ some ""
  · rw [if_pos hc] at hfp
    rcases hc with ⟨-, -, hne⟩
    intro hempty
    exact hne (by rw [hfp, hempty])
  · rw [if_neg hc] at hfp
    exact absurd hfp (by simp)

/-- The code's two-phase extraction (collect truthy fragments, then
filter positive lengths, then join) computes exactly the spec-worded
concatenation. -/
theorem responseText_eq_spec (messages : List SessionMessage) :
    responseText messages = specAssistantConcat messages := by
  unfold responseText
  have hfilter : (extractedContent messages).filter (fun t => 0 < t.length)
      = extractedContent messages :=
    List.filter_eq_self.mpr (fun t ht => by
      have hne := mem_extractedContent_ne_empty messages t ht
      simpa using length_pos_of_ne_empty t hne)
  rw [hfilter]
  unfold specAssistantConcat extractedContent
  have hfn : ∀ p : MessagePart,
      (if (p.type = "text" ∨ p.type = "reasoning") ∧ p.text ≠ none ∧ p.text ≠ some "" then
        p.text
      else none)
      = (match p.text with
         | some s => if (p.type = "text" ∨ p.type = "reasoning") ∧ s ≠ "" then some s else none
         | none => none) := by
    intro p
    cases hpt : p.text with
    | none => simp [hpt]
    | some s =>
      by_cases hc : (p.type = "text" ∨ p.type = "reasoning") ∧ s ≠ ""
      · simp [hpt, hc.1, hc.2]
      · simp [hpt, hc]
  have hinner :
      (fun (p : MessagePart) =>
        if (p.type = "text" ∨ p.type = "reasoning") ∧ p.text ≠ none ∧ p.text ≠ some "" then
          p.text
        else none)
      = (fun (p : MessagePart) =>
          match p.text with
          | some s => if (p.type = "text" ∨ p.type = "reasoning") ∧ s ≠ "" then some s else none
          | none => none) := funext hfn
  rw [hinner]

/-! ## Fallback-resolver lemmas -/

/-- Unfolding of the resolver loop at a null candidate. -/
theorem resolveFallbackChainGo_cons_none (rest : List (Option String)) (acc : List String) :
    resolveFallbackChainGo (none :: rest) acc = resolveFallbackChainGo rest acc := rfl

/-- Unfolding of the resolver loop at a present candidate, with the
skip condition in membership form. -/
theorem resolveFallbackChainGo_cons_some (model : String) (rest : List (Option String))
    (acc : List String) :
    resolveFallbackChainGo (some model :: rest) acc =
      if model = "" ∨ model ∈ acc then resolveFallbackChainGo rest acc
      else resolveFallbackChainGo rest (acc ++ [model]) := by
  by_cases hskip : model = "" ∨ model ∈ acc
  · simp [resolveFallbackChainGo, hskip]
  · simp [resolveFallbackChainGo, hskip]

/-- The resolver loop keeps the accumulator duplicate-free. -/
theorem resolveFallbackChainGo_nodup (l : List (Option String)) :
    ∀ acc : List String, acc.Nodup → (resolveFallbackChainGo l acc).Nodup := by
  induction l with
  | nil => intro acc h; exact h
  | cons mo rest ih =>
    intro acc h
    cases mo with
    | none => exact ih acc h
    | some model =>
      rw [resolveFallbackChainGo_cons_some]
      by_cases hskip : model = "" ∨ model ∈ acc
      · rw [if_pos hskip]
        exact ih acc h
      · have hnm : model ∉ acc := fun hm => hskip (Or.inr hm)
        rw [if_neg hskip]
        exact ih _ (by simp [List.nodup_append, h, hnm])

/-- The resolver loop appends, to the accumulator, a subsequence of the
non-null candidate values: first-seen order is preserved. -/
theorem resolveFallbackChainGo_sublist (l : List (Option String)) :
    ∀ acc, ∃ s, resolveFallbackChainGo l acc = acc ++ s ∧ s.Sublist (l.filterMap id) := by
  induction l with
  | nil => intro acc; exact ⟨[], by simp [resolveFallbackChainGo], by simp⟩
  | cons mo rest ih =>
    intro acc
    cases mo with
    | none =>
      obtain ⟨s, hs, hsub⟩ := ih acc
      exact ⟨s, by rw [resolveFallbackChainGo_cons_none]; exact hs, by simpa using hsub⟩
    | some model =>
      by_cases hskip : model = "" ∨ model ∈ acc
      · obtain ⟨s, hs, hsub⟩ := ih acc
        refine ⟨s, ?_, ?_⟩
        · rw [resolveFallbackChainGo_cons_some, if_pos hskip]
          exact hs
        · simpa using hsub.cons model
      · obtain ⟨s, hs, hsub⟩ := ih (acc ++ [model])
        refine ⟨model :: s, ?_, ?_⟩
        · rw [resolveFallbackChainGo_cons_some, if_neg hskip, hs, List.append_assoc]
          rfl
        · simpa using hsub.cons₂ model

/-- Membership in the resolver loop's output: the accumulated elements
plus every non-empty candidate value. -/
theorem resolveFallbackChainGo_mem (l : List (Option String)) :
    ∀ acc x, x ∈ resolveFallbackChainGo l acc ↔ x ∈ acc ∨ (x ≠ "" ∧ some x ∈ l) := by
  induction l with
  | nil => intro acc x; simp [resolveFallbackChainGo]
  | cons mo rest ih =>
    intro acc x
    cases mo with
    | none =>
      rw [resolveFallbackChainGo_cons_none, ih acc x]
      simp
    | some model =>
      rw [resolveFallbackChainGo_cons_some]
      by_cases hskip : model = "" ∨ model ∈ acc
      · rw [if_pos hskip, ih acc x]
        constructor
        · rintro (h | ⟨hne, hr⟩)
          · exact Or.inl h
          · exact Or.inr ⟨hne, List.mem_cons_of_mem _ hr⟩
        · rintro (h | ⟨hne, hr⟩)
          · exact Or.inl h
          · rcases List.mem_cons.mp hr with h2 | h2
            · have hx : x = model := Option.some.inj h2
              rcases hskip with he | hmemacc
              · exact absurd (hx.trans he) hne
              · exact Or.inl (by rw [hx]; exact hmemacc)
            · exact Or.inr ⟨hne, h2⟩
      · have he : model ≠ "" := fun h => hskip (Or.inl h)
        rw [if_neg hskip, ih (acc ++ [model]) x]
        constructor
        · rintro (h | ⟨hne, hr⟩)
          · rcases List.mem_append.mp h with h2 | h2
            · exact Or.inl h2
            · have hx : x = model := by simpa using h2
              exact Or.inr ⟨by rw [hx]; exact he, by rw [hx]; exact List.mem_cons_self _ _⟩
          · exact Or.inr ⟨hne, List.mem_cons_of_mem _ hr⟩
        · rintro (h | ⟨hne, hr⟩)
          · exact Or.inl (List.mem_append.mpr (Or.inl h))
          · rcases List.mem_cons.mp hr with h2 | h2
            · exact Or.inl (List.mem_append.mpr (Or.inr (by simp [Option.some.inj h2])))
            · exact Or.inr ⟨hne, h2⟩

/-! ## More claim theorems -/

/-- Claim C7 (confirmed): the resolved fallback chain is the configured
primary model followed by the configured fallback sequence, with
null/absent (and empty-string) entries skipped and duplicates removed
preserving first-seen order — it is duplicate-free, a subsequence of the
non-null candidates in their original order, and contains exactly the
non-empty candidate values; in particular primary `p/a` with chain
`[p/a, q/b, q/b]` resolves to `[p/a, q/b]`. -/
theorem resolveFallbackChain_spec :
    resolveFallbackChain (some "p/a") [some "p/a", some "q/b", some "q/b"] = ["p/a", "q/b"] ∧
    (∀ primary configuredChain, (resolveFallbackChain primary configuredChain).Nodup) ∧
    (∀ primary configuredChain,
      (resolveFallbackChain primary configuredChain).Sublist
        ((primary :: configuredChain).filterMap id)) ∧
    (∀ primary configuredChain x,
      x ∈ resolveFallbackChain primary configuredChain ↔
        (x ≠ "" ∧ (primary = some x ∨ some x ∈ configuredChain))) := by
  refine ⟨by decide, ?_, ?_, ?_⟩
  · intro p c
    exact resolveFallbackChainGo_nodup _ _ List.nodup_nil
  · intro p c
    obtain ⟨s, hs, hsub⟩ := resolveFallbackChainGo_sublist (p :: c) []
    unfold resolveFallbackChain
    rw [hs]
    simpa using hsub
  · intro p c x
    unfold resolveFallbackChain
    rw [resolveFallbackChainGo_mem (p :: c) [] x]
    simp only [List.not_mem_nil, false_or, List.mem_cons, Option.some.injEq]
    constructor
    · rintro ⟨hne, h | hr⟩
      · exact ⟨hne, Or.inl h.symm⟩
      · exact ⟨hne, Or.inr hr⟩
    · rintro ⟨hne, h | hr⟩
      · exact ⟨hne, Or.inl h.symm⟩
      · exact ⟨hne, Or.inr hr⟩

/-- Claim C6 (confirmed): an idle event for a running task's session
completes the task, storing the concatenation (in message order then
part order) of every non-empty text or reasoning part of
assistant-authored messages joined with blank-line separators, or the
literal `(No output)` marker when that concatenation is empty. -/
theorem idle_completion_stores_assistant_concat (m : Manager) (sid : String) (tid : Nat)
    (t : BackgroundTask) (msgs : List SessionMessage)
    (hIdx : ((m.tasksBySessionId.find? (fun q => q.1 = sid)).map (fun q => q.2)) = some tid)
    (hT : lookupTask m tid = some t) (hRun : t.status = .running) (hSess : t.sessionId ≠ none) :
    lookupTask (handleSessionStatus m "session.status" (some sid) (some "idle") (Except.ok msgs))
        tid
      = some (terminalize m.now t .completed
          (if responseText msgs ≠ "" then responseText msgs else "(No output)")) ∧
    responseText msgs = specAssistantConcat msgs := by
  refine ⟨?_, responseText_eq_spec msgs⟩
  have hng : ¬(t.status = .completed ∨ t.status = .failed) := by rw [hRun]; simp
  have hred : handleSessionStatus m "session.status" (some sid) (some "idle") (Except.ok msgs)
      = extractAndCompleteTask m tid (Except.ok msgs) := by
    simp [handleSessionStatus, hIdx, hT, hRun]
  rw [hred]
  cases hs : t.sessionId with
  | none => exact absurd hs hSess
  | some s =>
    have hred2 : extractAndCompleteTask m tid (Except.ok msgs)
        = completeTask m tid .completed
            (if responseText msgs ≠ "" then responseText msgs else "(No output)") := by
      by_cases hrt : responseText msgs ≠ ""
      · simp [extractAndCompleteTask, hT, hs, hrt]
      · simp [extractAndCompleteTask, hT, hs, hrt]
    rw [hred2]
    exact completeTask_lookup m tid t .completed
      (if responseText msgs ≠ "" then responseText msgs else "(No output)") hT hng

/-- Witness: at `runMgr` with two assistant messages carrying text parts
`A` and `B`, the idle event stores exactly `A\n\nB`. -/
theorem idle_completion_witness :
    (lookupTask (handleSessionStatus runMgr "session.status" (some "sr") (some "idle")
        (Except.ok msgsAB)) 3
      = some (terminalize runMgr.now runTask .completed
          (if responseText msgsAB ≠ "" then responseText msgsAB else "(No output)")) ∧
     responseText msgsAB = specAssistantConcat msgsAB) ∧
    responseText msgsAB = "A\n\nB" :=
  ⟨idle_completion_stores_assistant_concat runMgr "sr" 3 runTask msgsAB
      (by decide) (by decide) (by decide) (by decide),
   by decide⟩

/-- First-slash decomposition: `findIdx?` locates `/` at index `j`
exactly when the list splits as a slash-free prefix of length `j`, the
slash, and a remainder. -/
theorem findIdx?_slash_decomp (l : List Char) : ∀ j : Nat,
    l.findIdx? (fun c => c = '/') = some j ↔
      ∃ a b : List Char, l = a ++ '/' :: b ∧ a.length = j ∧ '/' ∉ a := by
  induction l with
  | nil =>
    intro j
    constructor
    · intro h
      simp at h
    · rintro ⟨a, b, h, -, -⟩
      exact absurd h (by simp)
  | cons c t ih =>
    intro j
    by_cases hc : c = '/'
    · subst hc
      rw [List.findIdx?_cons, if_pos (by simp)]
      constructor
      · intro h
        have hj : j = 0 := by
          have := Option.some.inj h
          omega
        subst hj
        exact ⟨[], t, rfl, rfl, by simp⟩
      · rintro ⟨a, b, hl, hlen, hna⟩
        cases a with
        | nil =>
          simp at hlen
          simp [hlen]
        | cons c2 a2 =>
          have hc2 : '/' = c2 := (List.cons.injEq _ _ _ _ ▸ hl).1
          exact absurd (hc2 ▸ List.mem_cons_self c2 a2) hna
    · rw [List.findIdx?_cons, if_neg (by simp [hc]), List.findIdx?_succ]
      constructor
      · intro h
        rw [Option.map_eq_some'] at h
        obtain ⟨j2, hj2, hj⟩ := h
        obtain ⟨a, b, hl, hlen, hna⟩ := (ih j2).mp hj2
        refine ⟨c :: a, b, by rw [hl]; rfl, by simp [hlen, hj], ?_⟩
        intro hmem
        rcases List.mem_cons.mp hmem with h2 | h2
        · exact hc h2.symm
        · exact hna h2
      · rintro ⟨a, b, hl, hlen, hna⟩
        cases a with
        | nil =>
          have : c = '/' := (List.cons.injEq _ _ _ _ ▸ hl).1
          exact absurd this hc
        | cons c2 a2 =>
          have ht : t = a2 ++ '/' :: b := (List.cons.injEq _ _ _ _ ▸ hl).2
          have hna2 : '/' ∉ a2 := fun h2 => hna (List.mem_cons_of_mem _ h2)
          have hf : t.findIdx? (fun x => x = '/') = some a2.length :=
            (ih a2.length).mpr ⟨a2, b, ht, rfl, hna2⟩
          rw [Option.map_eq_some']
          exact ⟨a2.length, hf, by simp at hlen; omega⟩

/-- Success characterization of `parseChars`: a parse succeeds exactly
on strings of the form `provider/rest` with a non-empty, slash-free
provider and a non-empty remainder — i.e. it fails exactly when the
separator is missing, at the start, or at the end. -/
theorem parseChars_eq_some_iff (l p q : List Char) :
    parseChars l = some (p, q) ↔ (l = p ++ '/' :: q ∧ p ≠ [] ∧ '/' ∉ p ∧ q ≠ []) := by
  constructor
  · intro h
    unfold parseChars at h
    cases hf : l.findIdx? (fun c => c = '/') with
    | none =>
      rw [hf] at h
      exact absurd h (by simp)
    | some i =>
      rw [hf] at h
      replace h : (if i = 0 ∨ l.length ≤ i + 1 then none
          else some (l.take i, l.drop (i + 1))) = some (p, q) := h
      by_cases hcond : i = 0 ∨ l.length ≤ i + 1
      · rw [if_pos hcond] at h
        cases h
      · rw [if_neg hcond] at h
        have hp : l.take i = p := (Prod.mk.injEq _ _ _ _ ▸ Option.some.inj h).1
        have hq : l.drop (i + 1) = q := (Prod.mk.injEq _ _ _ _ ▸ Option.some.inj h).2
        push_neg at hcond
        obtain ⟨hi0, hilen⟩ := hcond
        obtain ⟨a, b, hl, hlen, hna⟩ := (findIdx?_slash_decomp l i).mp hf
        have hpa : p = a := by
          rw [← hp, hl, ← hlen, List.take_left]
        have hqb : q = b := by
          rw [← hq, hl]
          have : a ++ '/' :: b = (a ++ ['/']) ++ b := by simp
          rw [this, List.drop_left' (by simp [hlen])]
        subst hpa hqb
        refine ⟨hl, ?_, hna, ?_⟩
        · intro hnil
          rw [hnil] at hlen
          exact hi0 (by simpa using hlen.symm)
        · intro hnil
          rw [hl, hnil] at hilen
          simp [hlen] at hilen
  · rintro ⟨hl, hp, hnp, hq⟩
    have hf : l.findIdx? (fun c => c = '/') = some p.length :=
      (findIdx?_slash_decomp l p.length).mpr ⟨p, q, hl, rfl, hnp⟩
    unfold parseChars
    rw [hf]
    show (if p.length = 0 ∨ l.length ≤ p.length + 1 then none
        else some (l.take p.length, l.drop (p.length + 1))) = some (p, q)
    rw [if_neg ?_]
    · have h1 : l.take p.length = p := by rw [hl, List.take_left]
      have h2 : l.drop (p.length + 1) = q := by
        rw [hl]
        have : p ++ '/' :: q = (p ++ ['/']) ++ q := by simp
        rw [this, List.drop_left' (by simp)]
      rw [h1, h2]
    · push_neg
      constructor
      · simpa using hp
      · rw [hl]
        have : q.length ≠ 0 := by simpa using hq
        simp
        omega

/-- Claim C8 (confirmed): parsing a model identifier fails exactly when
no decomposition `provider ++ "/" ++ rest` with a non-empty slash-free
provider and a non-empty rest exists — that is, when the first separator
is missing, at the start, or at the end of the string; and a candidate
whose reference fails to parse is recorded in the per-attempt error list
(naming that model) while the loop advances to the next candidate, never
escaping the start sequence as an exception (the loop is a total
function into the error list). -/
theorem parseModelReference_failure_spec :
    (∀ s : String, parseModelReference s = none ↔
      ¬∃ p q : List Char, s.data = p ++ '/' :: q ∧ p ≠ [] ∧ '/' ∉ p ∧ q ≠ []) ∧
    (∀ model rest errors, parseModelReference model = none →
      peelAttempts (some model :: rest) errors
        = peelAttempts rest
            (errors ++ [model ++ ": " ++ "Invalid fallback model format: " ++ model])) := by
  constructor
  · intro s
    unfold parseModelReference
    rw [Option.map_eq_none']
    constructor
    · rintro h ⟨p, q, hd⟩
      have := (parseChars_eq_some_iff s.data p q).mpr hd
      rw [h] at this
      cases this
    · intro h
      cases hp : parseChars s.data with
      | none => rfl
      | some pq =>
        exact absurd ⟨pq.1, pq.2, (parseChars_eq_some_iff s.data pq.1 pq.2).mp (by
          rw [hp])⟩ h
  · intro model rest errors h
    simp [peelAttempts, h]

/-- Witness: the separator-free identifier `badmodel` fails parsing and
is recorded as a per-attempt error naming the model, advancing the loop. -/
theorem parseModelReference_failure_witness :
    parseModelReference "badmodel" = none ∧
    peelAttempts [some "badmodel"] []
      = peelAttempts []
          ([] ++ ["badmodel" ++ ": " ++ "Invalid fallback model format: " ++ "badmodel"]) :=
  ⟨by decide, parseModelReference_failure_spec.2 "badmodel" [] [] (by decide)⟩

/-! ## Invariant bookkeeping lemmas -/

/-- The elementwise update of an association list preserves its id
column. -/
theorem map_fst_update (l : List (Nat × BackgroundTask)) (tid : Nat)
    (f : BackgroundTask → BackgroundTask) :
    (l.map (fun p => (p.1, if p.1 = tid then f p.2 else p.2))).map (fun p => p.1)
      = l.map (fun p => p.1) := by
  induction l with
  | nil => rfl
  | cons p rest ih => simp [ih]

/-- In-place task updates preserve the registry's id column. -/
theorem updateTask_map_fst (m : Manager) (tid : Nat) (f : BackgroundTask → BackgroundTask) :
    ((updateTask m tid f).tasks).map (fun p => p.1) = m.tasks.map (fun p => p.1) := by
  simp only [updateTask]
  exact map_fst_update m.tasks tid f

/-- With duplicate-free ids, `find?` on the id column returns exactly
the member entry. -/
theorem find?_fst_unique (l : List (Nat × BackgroundTask))
    (hnd : (l.map (fun p => p.1)).Nodup) (p : Nat × BackgroundTask) (hp : p ∈ l) :
    l.find? (fun q => q.1 = p.1) = some p := by
  induction l with
  | nil => cases hp
  | cons q rest ih =>
    rcases List.mem_cons.mp hp with h | h
    · subst h
      simp [List.find?_cons]
    · have hq1 : q.1 ≠ p.1 := by
        intro he
        have : q.1 ∈ rest.map (fun r => r.1) := he ▸ List.mem_map_of_mem _ h
        exact (List.nodup_cons.mp hnd).1 this
      have hd : (decide (q.1 = p.1)) = false := by simp [hq1]
      simp only [List.find?_cons, hd]
      exact ih (List.nodup_cons.mp hnd).2 h

/-- Decomposition of membership in an updated registry. -/
theorem mem_updateTask (m : Manager) (tid : Nat) (f : BackgroundTask → BackgroundTask)
    (p : Nat × BackgroundTask) (hp : p ∈ (updateTask m tid f).tasks) :
    ∃ q, q ∈ m.tasks ∧ p = (q.1, if q.1 = tid then f q.2 else q.2) := by
  simp only [updateTask, List.mem_map] at hp
  obtain ⟨q, hq, h⟩ := hp
  exact ⟨q, hq, h.symm⟩

/-- With duplicate-free ids, the registry lookup finds exactly the
member entry. -/
theorem lookupTask_unique (m : Manager) (hnd : (m.tasks.map (fun p => p.1)).Nodup)
    (p : Nat × BackgroundTask) (hp : p ∈ m.tasks) :
    lookupTask m p.1 = some p.2 := by
  simp only [lookupTask]
  rw [find?_fst_unique m.tasks hnd p hp]
  rfl

/-- A failed lookup means no registry entry carries the id. -/
theorem lookupTask_none (m : Manager) (tid : Nat) (h : lookupTask m tid = none)
    (p : Nat × BackgroundTask) (hp : p ∈ m.tasks) : p.1 ≠ tid := by
  intro he
  simp only [lookupTask, Option.map_eq_none', List.find?_eq_none] at h
  exact absurd (by simpa using he) (h p hp)

/-- Fields of the manager that `completeTask` never touches. -/
theorem completeTask_skeleton (m : Manager) (tid : Nat) (st : TaskStatus) (msg : String) :
    (completeTask m tid st msg).startQueue = m.startQueue ∧
    (completeTask m tid st msg).flights = m.flights ∧
    (completeTask m tid st msg).activeStarts = m.activeStarts ∧
    (completeTask m tid st msg).maxConcurrentStarts = m.maxConcurrentStarts ∧
    (completeTask m tid st msg).nextId = m.nextId ∧
    ((completeTask m tid st msg).tasks).map (fun p => p.1) = m.tasks.map (fun p => p.1) := by
  unfold completeTask
  cases hl : lookupTask m tid with
  | none => exact ⟨rfl, rfl, rfl, rfl, rfl, rfl⟩
  | some t =>
    by_cases hg : t.status = .completed ∨ t.status = .failed
    · simp [hg]
    · simp only [hg, if_false]
      cases hsid : (terminalize m.now t st msg).sessionId <;>
        by_cases hp : (terminalize m.now t st msg).parentSessionId ≠ "" <;>
          by_cases hc : tid ∈ m.completionResolvers <;>
            simp [updateTask, hsid, hp, hc, map_fst_update]

/-- Every entry of the registry after `completeTask` either keeps its
old status or carries the terminal status `st`. -/
theorem completeTask_status_mem (m : Manager) (tid : Nat) (st : TaskStatus) (msg : String)
    (p : Nat × BackgroundTask) (hp : p ∈ (completeTask m tid st msg).tasks) :
    ∃ q, q ∈ m.tasks ∧ p.1 = q.1 ∧ (p.2.status = q.2.status ∨ p.2.status = st) := by
  have htasks : (completeTask m tid st msg).tasks = m.tasks ∨
      ∃ t1 : BackgroundTask, t1.status = st ∧
        (completeTask m tid st msg).tasks = (updateTask m tid (fun _ => t1)).tasks := by
    unfold completeTask
    cases hl : lookupTask m tid with
    | none => exact Or.inl rfl
    | some t =>
      by_cases hg : t.status = .completed ∨ t.status = .failed
      · simp [hg]
      · refine Or.inr ⟨terminalize m.now t st msg, rfl, ?_⟩
        simp only [hg, if_false]
        cases hsid : (terminalize m.now t st msg).sessionId <;>
          by_cases hpp : (terminalize m.now t st msg).parentSessionId ≠ "" <;>
            by_cases hc : tid ∈ m.completionResolvers <;>
              simp [updateTask, hsid, hpp, hc]
  rcases htasks with he | ⟨t1, ht1, he⟩
  · exact ⟨p, he ▸ hp, rfl, Or.inl rfl⟩
  · rw [he] at hp
    obtain ⟨q, hq, hpq⟩ := mem_updateTask m tid _ p hp
    by_cases hqt : q.1 = tid
    · refine ⟨q, hq, ?_, Or.inr ?_⟩
      · rw [hpq]
      · rw [hpq]
        simp [hqt, ht1]
    · refine ⟨q, hq, ?_, Or.inl ?_⟩
      · rw [hpq]
      · rw [hpq]
        simp [hqt]

/-- With duplicate-free ids, a task that is `starting` after
`completeTask` (with a non-`starting` terminal status) was already
`starting` before and is not the completed task. -/
theorem completeTask_starting_mem (m : Manager) (tid : Nat) (st : TaskStatus) (msg : String)
    (hnd : (m.tasks.map (fun p => p.1)).Nodup) (hst : st ≠ .starting)
    (p : Nat × BackgroundTask) (hp : p ∈ (completeTask m tid st msg).tasks)
    (hs : p.2.status = .starting) :
    p ∈ m.tasks ∧ p.1 ≠ tid := by
  have htasks : (completeTask m tid st msg).tasks = m.tasks ∨
      ∃ t t1 : BackgroundTask, lookupTask m tid = some t ∧ t1.status = st ∧
        (completeTask m tid st msg).tasks = (updateTask m tid (fun _ => t1)).tasks := by
    unfold completeTask
    cases hl : lookupTask m tid with
    | none => exact Or.inl rfl
    | some t =>
      by_cases hg : t.status = .completed ∨ t.status = .failed
      · simp [hg]
      · refine Or.inr ⟨t, terminalize m.now t st msg, rfl, rfl, ?_⟩
        simp only [hg, if_false]
        cases hsid : (terminalize m.now t st msg).sessionId <;>
          by_cases hpp : (terminalize m.now t st msg).parentSessionId ≠ "" <;>
            by_cases hc : tid ∈ m.completionResolvers <;>
              simp [updateTask, hsid, hpp, hc]
  rcases htasks with he | ⟨t, t1, hl, ht1, he⟩
  · rw [he] at hp
    refine ⟨hp, ?_⟩
    intro hpt
    cases hlk : lookupTask m tid with
    | none => exact lookupTask_none m tid hlk p hp hpt
    | some t =>
      have := lookupTask_unique m hnd p hp
      rw [hpt, hlk] at this
      have hpt2 : p.2 = t := (Option.some.inj this).symm
      -- in the unchanged branch the guard held or lookup failed; recheck directly
      -- (the unchanged branch with some t means t.status is completed or failed)
      have hguard : t.status = .completed ∨ t.status = .failed := by
        by_contra hg
        have : (completeTask m tid st msg).tasks
            = (updateTask m tid (fun _ => terminalize m.now t st msg)).tasks := by
          unfold completeTask
          rw [hlk]
          simp only [hg, if_false]
          cases hsid : (terminalize m.now t st msg).sessionId <;>
            by_cases hpp : (terminalize m.now t st msg).parentSessionId ≠ "" <;>
              by_cases hc : tid ∈ m.completionResolvers <;>
                simp [updateTask, hsid, hpp, hc]
        -- both characterizations give the same id column, no contradiction here;
        -- instead use the member entry directly
        rw [he] at this
        have hself : p ∈ (updateTask m tid (fun _ => terminalize m.now t st msg)).tasks := by
          rw [← this]; exact hp
        obtain ⟨q, hq, hpq⟩ := mem_updateTask m tid _ p hself
        by_cases hqt : q.1 = tid
        · rw [hpq] at hs
          simp [hqt, terminalize] at hs
          exact hst hs
        · rw [hpq] at hpt
          simp at hpt
          exact hqt hpt
      rcases hguard with hg | hg <;> rw [hpt2, hg] at hs <;> cases hs
  · rw [he] at hp
    obtain ⟨q, hq, hpq⟩ := mem_updateTask m tid _ p hp
    by_cases hqt : q.1 = tid
    · rw [hpq] at hs
      simp [hqt] at hs
      exact absurd (ht1.symm.trans hs) hst
    · rw [hpq]
      simp only [hqt, if_false]
      exact ⟨hq, by simpa using hqt⟩

/-- Normal form and field effects of the synchronous start prefix: the
cancellation check can never fire (the status was just overwritten to
`starting`), so a flight is always created and the counter incremented. -/
theorem startTaskEntry_fields (m : Manager) (tid : Nat) :
    (startTaskEntry m tid).startQueue = m.startQueue ∧
    (startTaskEntry m tid).flights = m.flights ++ [⟨tid, .creating⟩] ∧
    (startTaskEntry m tid).activeStarts = m.activeStarts + 1 ∧
    (startTaskEntry m tid).maxConcurrentStarts = m.maxConcurrentStarts ∧
    (startTaskEntry m tid).nextId = m.nextId ∧
    ((startTaskEntry m tid).tasks).map (fun p => p.1) = m.tasks.map (fun p => p.1) ∧
    (∀ p ∈ (startTaskEntry m tid).tasks, ∃ q, q ∈ m.tasks ∧ p.1 = q.1 ∧
      ((p.1 ≠ tid ∧ p.2.status = q.2.status) ∨ (p.1 = tid ∧ p.2.status = .starting))) := by
  have hcond : ¬((lookupTask (updateTask m tid (fun t => { t with status := .starting })) tid).map
      (fun t => t.status) = some TaskStatus.cancelled) := by
    rw [lookupTask_updateTask_self]
    cases lookupTask m tid <;> simp
  have hentry : startTaskEntry m tid =
      { updateTask m tid (fun t => { t with status := .starting }) with
        activeStarts := m.activeStarts + 1
        flights := m.flights ++ [⟨tid, .creating⟩] } := by
    simp only [startTaskEntry]
    rw [if_neg hcond]
    rfl
  rw [hentry]
  refine ⟨rfl, rfl, rfl, rfl, rfl, ?_, ?_⟩
  · exact updateTask_map_fst m tid (fun t => { t with status := .starting })
  intro p hp
  obtain ⟨q, hq, hpq⟩ :=
    mem_updateTask m tid (fun t => { t with status := .starting }) p hp
  by_cases hqt : q.1 = tid
  · refine ⟨q, hq, by rw [hpq], Or.inr ⟨by rw [hpq]; exact hqt, ?_⟩⟩
    rw [hpq]
    simp [hqt]
  · refine ⟨q, hq, by rw [hpq], Or.inl ⟨by rw [hpq]; simpa using hqt, ?_⟩⟩
    rw [hpq]
    simp [hqt]

/-- The invariant is preserved by admitting a dequeued task. -/
theorem startTaskEntry_inv (N : Nat) (m : Manager) (tid : Nat) (h : Inv N m)
    (hlt : m.activeStarts < m.maxConcurrentStarts)
    (hqf : tid ∉ m.flights.map Flight.taskId)
    (hqq : tid ∉ m.startQueue)
    (hql : tid < m.nextId) :
    Inv N (startTaskEntry m tid) := by
  obtain ⟨hq, hfl, hact, hmax, hnext, hmap, hmem⟩ := startTaskEntry_fields m tid
  refine ⟨?_, ?_, ?_, ?_, ?_, ?_, ?_, ?_, ?_, ?_, ?_⟩
  · rw [hmax]; exact h.max_eq
  · rw [hmap]; exact h.tasks_nodup
  · rw [hq]; exact h.queue_nodup
  · rw [hfl, List.map_append]
    refine (List.nodup_append).mpr ⟨h.flights_nodup, by simp, ?_⟩
    intro a ha
    simp only [List.map_cons, List.map_nil, List.mem_singleton]
    intro he
    exact hqf (he ▸ ha)
  · intro t ht
    rw [hfl, List.map_append]
    rw [hq] at ht
    intro hmem2
    rcases List.mem_append.mp hmem2 with h2 | h2
    · exact h.queue_flight_disjoint t ht h2
    · simp only [List.map_cons, List.map_nil, List.mem_singleton] at h2
      exact hqq (h2 ▸ ht)
  · intro p hp hs
    obtain ⟨q, hqm, hq1, hrel⟩ := hmem p hp
    rcases hrel with ⟨hne, hstat⟩ | ⟨heq, -⟩
    · rw [hfl, hq1]
      exact List.mem_append.mpr (Or.inl (h.starting_flight q hqm (hstat ▸ hs)))
    · rw [hfl, heq]
      exact List.mem_append.mpr (Or.inr (List.mem_singleton.mpr rfl))
  · rw [hfl, hact]
    simpa using Nat.succ_le_succ h.flights_le
  · rw [hact, hmax]
    exact Nat.succ_le_of_lt hlt
  · intro p hp
    rw [hnext]
    obtain ⟨q, hqm, hq1, -⟩ := hmem p hp
    exact hq1 ▸ h.tasks_lt q hqm
  · intro t ht
    rw [hnext]
    exact h.queue_lt t (hq ▸ ht)
  · intro f hf
    rw [hnext]
    rw [hfl] at hf
    rcases List.mem_append.mp hf with h2 | h2
    · exact h.flights_lt f h2
    · rw [List.mem_singleton.mp h2]
      exact hql

/-- The invariant is preserved by the queue-processing loop, for any
fuel. -/
theorem processQueueAux_inv (fuel : Nat) : ∀ (N : Nat) (m : Manager), Inv N m →
    Inv N (processQueueAux fuel m) := by
  induction fuel with
  | zero => intro N m h; exact h
  | succ fuel ih =>
    intro N m h
    unfold processQueueAux
    by_cases hlt : m.activeStarts < m.maxConcurrentStarts
    · rw [if_pos hlt]
      cases hq : m.startQueue with
      | nil => exact h
      | cons tid rest =>
        apply ih
        have hnq := h.queue_nodup
        rw [hq] at hnq
        have hbase : Inv N { m with startQueue := rest } := by
          refine ⟨h.max_eq, h.tasks_nodup, (List.nodup_cons.mp hnq).2, h.flights_nodup, ?_,
            h.starting_flight, h.flights_le, h.active_le, h.tasks_lt, ?_, h.flights_lt⟩
          · intro t ht
            exact h.queue_flight_disjoint t (by rw [hq]; exact List.mem_cons_of_mem _ ht)
          · intro t ht
            exact h.queue_lt t (by rw [hq]; exact List.mem_cons_of_mem _ ht)
        exact startTaskEntry_inv N _ tid hbase hlt
          (h.queue_flight_disjoint tid (by rw [hq]; exact List.mem_cons_self _ _))
          (List.nodup_cons.mp hnq).1
          (h.queue_lt tid (by rw [hq]; exact List.mem_cons_self _ _))
    · rw [if_neg hlt]
      exact h

/-- The invariant is preserved by the `finally` block, provided the
in-flight count already dropped below the decremented counter. -/
theorem finishStart_inv (N : Nat) (m : Manager) (h : Inv N m)
    (hf : m.flights.length ≤ m.activeStarts - 1) : Inv N (finishStart m) := by
  unfold finishStart processQueue
  apply processQueueAux_inv
  exact ⟨h.max_eq, h.tasks_nodup, h.queue_nodup, h.flights_nodup, h.queue_flight_disjoint,
    h.starting_flight, hf, le_trans (Nat.sub_le _ _) h.active_le, h.tasks_lt, h.queue_lt,
    h.flights_lt⟩

/-- The invariant is preserved by `launch`. -/
theorem launch_inv (N : Nat) (m : Manager) (opts : LaunchOptions) (h : Inv N m) :
    Inv N (launch m opts) := by
  unfold launch processQueue
  apply processQueueAux_inv
  constructor <;> dsimp only
  · exact h.max_eq
  ·
    rw [List.map_append]
    refine (List.nodup_append).mpr ⟨h.tasks_nodup, by simp, ?_⟩
    intro a ha
    simp only [List.map_cons, List.map_nil, List.mem_singleton]
    intro he
    obtain ⟨q, hqm, hq1⟩ := List.mem_map.mp ha
    have := h.tasks_lt q hqm
    omega
  ·
    refine (List.nodup_append).mpr ⟨h.queue_nodup, by simp, ?_⟩
    intro a ha
    simp only [List.mem_singleton]
    intro he
    have := h.queue_lt a ha
    omega
  · exact h.flights_nodup
  ·
    intro t ht
    rcases List.mem_append.mp ht with h2 | h2
    · exact h.queue_flight_disjoint t h2
    · rw [List.mem_singleton.mp h2]
      intro hmem2
      obtain ⟨f, hfm, hf1⟩ := List.mem_map.mp hmem2
      have := h.flights_lt f hfm
      omega
  ·
    intro p hp hs
    rcases List.mem_append.mp hp with h2 | h2
    · exact h.starting_flight p h2 hs
    · rw [List.mem_singleton.mp h2] at hs
      cases hs
  · exact h.flights_le
  · exact h.active_le
  ·
    intro p hp
    rcases List.mem_append.mp hp with h2 | h2
    · have := h.tasks_lt p h2
      omega
    · rw [List.mem_singleton.mp h2]
      simp
  ·
    intro t ht
    rcases List.mem_append.mp ht with h2 | h2
    · have := h.queue_lt t h2
      omega
    · rw [List.mem_singleton.mp h2]
      simp
  ·
    intro f hf
    have := h.flights_lt f hf
    omega

/-- Invariant transfer between managers that agree on the queue (up to
subsequence), the flights, the counters and the id column, with statuses
only changing to non-`starting` values. -/
theorem inv_of_same_shape (N : Nat) (m m' : Manager) (h : Inv N m)
    (hq : m'.startQueue.Sublist m.startQueue) (hfl : m'.flights = m.flights)
    (hact : m'.activeStarts = m.activeStarts)
    (hmax : m'.maxConcurrentStarts = m.maxConcurrentStarts)
    (hnext : m'.nextId = m.nextId)
    (hmap : (m'.tasks).map (fun p => p.1) = m.tasks.map (fun p => p.1))
    (hstat : ∀ p ∈ m'.tasks, ∃ q, q ∈ m.tasks ∧ p.1 = q.1 ∧
      (p.2.status = q.2.status ∨ p.2.status ≠ .starting)) :
    Inv N m' := by
  refine ⟨?_, ?_, ?_, ?_, ?_, ?_, ?_, ?_, ?_, ?_, ?_⟩
  · rw [hmax]; exact h.max_eq
  · rw [hmap]; exact h.tasks_nodup
  · exact h.queue_nodup.sublist hq
  · rw [hfl]; exact h.flights_nodup
  · intro tid htid
    rw [hfl]
    exact h.queue_flight_disjoint tid (hq.subset htid)
  · intro p hp hs
    obtain ⟨q, hqmem, hq1, hrel⟩ := hstat p hp
    rcases hrel with hrel | hrel
    · rw [hfl, hq1]
      exact h.starting_flight q hqmem (hrel ▸ hs)
    · exact absurd hs hrel
  · rw [hfl, hact]; exact h.flights_le
  · rw [hact, hmax]; exact h.active_le
  · intro p hp
    rw [hnext]
    have : p.1 ∈ m.tasks.map (fun r => r.1) := by
      rw [← hmap]; exact List.mem_map_of_mem _ hp
    obtain ⟨q, hqm, hq1⟩ := List.mem_map.mp this
    exact hq1 ▸ h.tasks_lt q hqm
  · intro tid htid
    rw [hnext]
    exact h.queue_lt tid (hq.subset htid)
  · intro f hf
    rw [hnext]
    exact h.flights_lt f (hfl ▸ hf)

/-- The invariant is preserved by `completeTask` for the terminal
statuses it is called with. -/
theorem completeTask_inv (N : Nat) (m : Manager) (tid : Nat) (st : TaskStatus) (msg : String)
    (h : Inv N m) (hst : st ≠ TaskStatus.starting) :
    Inv N (completeTask m tid st msg) := by
  obtain ⟨hq, hfl, hact, hmax, hnext, hmap⟩ := completeTask_skeleton m tid st msg
  apply inv_of_same_shape N m _ h (hq ▸ List.Sublist.refl _) hfl hact hmax hnext hmap
  intro p hp
  obtain ⟨q, hqm, hq1, hrel⟩ := completeTask_status_mem m tid st msg p hp
  refine ⟨q, hqm, hq1, hrel.imp id ?_⟩
  intro he
  rw [he]
  exact hst

/-- The invariant is preserved by setting one task's status to a
non-`starting` value. -/
theorem updateTask_status_inv (N : Nat) (m : Manager) (tid : Nat) (st : TaskStatus)
    (h : Inv N m) (hst : st ≠ TaskStatus.starting) :
    Inv N (updateTask m tid (fun u => { u with status := st })) := by
  refine inv_of_same_shape N m _ h ?_ ?_ ?_ ?_ ?_ ?_ ?_
  · exact List.Sublist.refl _
  · rfl
  · rfl
  · rfl
  · rfl
  · exact updateTask_map_fst m tid _
  intro p hp
  obtain ⟨q, hq, hpq⟩ := mem_updateTask m tid _ p hp
  by_cases hqt : q.1 = tid
  · refine ⟨q, hq, by rw [hpq], Or.inr ?_⟩
    rw [hpq]
    simpa [hqt] using hst
  · refine ⟨q, hq, by rw [hpq], Or.inl ?_⟩
    rw [hpq]
    simp [hqt]

/-- The invariant is preserved by removing a queue entry. -/
theorem erase_queue_inv (N : Nat) (m : Manager) (tid : Nat) (h : Inv N m) :
    Inv N { m with startQueue := m.startQueue.erase tid } :=
  inv_of_same_shape N m _ h (List.erase_sublist tid m.startQueue) rfl rfl rfl rfl rfl
    (fun p hp => ⟨p, hp, rfl, Or.inl rfl⟩)

/-- The invariant is preserved by the per-task cancellation routine. -/
theorem cancelTaskStep_inv (N : Nat) (m : Manager) (tid : Nat) (h : Inv N m) :
    Inv N (cancelTaskStep m tid).1 := by
  unfold cancelTaskStep
  cases hl : lookupTask m tid with
  | none => exact h
  | some t =>
    by_cases hst : t.status = .pending ∨ t.status = .starting ∨ t.status = .running
    · simp only [hst, if_true]
      have h1 : Inv N { m with
          completionResolvers := m.completionResolvers.filter (fun x => x ≠ tid) } :=
        ⟨h.max_eq, h.tasks_nodup, h.queue_nodup, h.flights_nodup, h.queue_flight_disjoint,
         h.starting_flight, h.flights_le, h.active_le, h.tasks_lt, h.queue_lt, h.flights_lt⟩
      have h2 := updateTask_status_inv N _ tid TaskStatus.cancelled h1 (by simp)
      by_cases hpend : t.status = .pending
      · simp only [hpend, if_true]
        exact completeTask_inv N _ tid .cancelled _ (erase_queue_inv N _ tid h2) (by simp)
      · simp only [hpend, if_false]
        exact completeTask_inv N _ tid .cancelled _ h2 (by simp)
    · simp only [hst, if_false]
      exact h

/-- The invariant is preserved by `cancel` in both modes. -/
theorem cancel_inv (N : Nat) (m : Manager) (taskId : Option Nat) (h : Inv N m) :
    Inv N (cancel m taskId).1 := by
  cases taskId with
  | some tid => exact cancelTaskStep_inv N m tid h
  | none =>
    have hfold : ∀ (ids : List Nat) (acc : Manager × Nat), Inv N acc.1 →
        Inv N (ids.foldl
          (fun acc tid =>
            let r := cancelTaskStep acc.1 tid
            (r.1, acc.2 + r.2)) acc).1 := by
      intro ids
      induction ids with
      | nil => intro acc ha; exact ha
      | cons tid rest ih =>
        intro acc ha
        rw [List.foldl_cons]
        exact ih _ (cancelTaskStep_inv N acc.1 tid ha)
    exact hfold _ _ h

/-- The invariant is preserved by session-deletion handling. -/
theorem handleSessionDeleted_inv (N : Nat) (m : Manager) (sid : String) (h : Inv N m) :
    Inv N (handleSessionDeleted m sid) := by
  unfold handleSessionDeleted
  cases hf : (m.tasksBySessionId.find? (fun p => p.1 = sid)).map (fun p => p.2) with
  | none => exact h
  | some tid =>
    dsimp only
    cases hl : lookupTask m tid with
    | none => exact h
    | some t =>
      by_cases hst : t.status = .running ∨ t.status = .pending
      · simp only [hst, if_true]
        have h2 : Inv N (updateTask m tid (fun _ =>
            { t with status := .cancelled
                     completedAt := some m.now
                     error := some "Session deleted" })) := by
          refine inv_of_same_shape N m _ h ?_ ?_ ?_ ?_ ?_ ?_ ?_
          · exact List.Sublist.refl _
          · rfl
          · rfl
          · rfl
          · rfl
          · exact updateTask_map_fst m tid _
          intro p hp
          obtain ⟨q, hq, hpq⟩ := mem_updateTask m tid _ p hp
          by_cases hqt : q.1 = tid
          · refine ⟨q, hq, by rw [hpq], Or.inr ?_⟩
            rw [hpq]
            simp [hqt]
          · refine ⟨q, hq, by rw [hpq], Or.inl ?_⟩
            rw [hpq]
            simp [hqt]
        by_cases hc : (updateTask m tid (fun _ =>
            { t with status := .cancelled
                     completedAt := some m.now
                     error := some "Session deleted" })).completionResolvers.contains tid
              = true <;>
          simp only [hc, if_true, if_false] <;>
          exact ⟨h2.max_eq, h2.tasks_nodup, h2.queue_nodup, h2.flights_nodup,
            h2.queue_flight_disjoint, h2.starting_flight, h2.flights_le, h2.active_le,
            h2.tasks_lt, h2.queue_lt, h2.flights_lt⟩
      · simp only [hst, if_false]
        exact h

/-- The invariant is preserved by result extraction. -/
theorem extractAndCompleteTask_inv (N : Nat) (m : Manager) (tid : Nat)
    (fetch : Except String (List SessionMessage)) (h : Inv N m) :
    Inv N (extractAndCompleteTask m tid fetch) := by
  unfold extractAndCompleteTask
  cases hl : lookupTask m tid with
  | none => exact h
  | some t =>
    dsimp only
    cases hs : t.sessionId with
    | none => exact h
    | some s =>
      dsimp only
      cases fetch with
      | error msg => exact completeTask_inv N m tid .failed msg h (by simp)
      | ok msgs =>
        dsimp only
        by_cases hrt : responseText msgs ≠ ""
        · rw [if_pos hrt]
          exact completeTask_inv N m tid .completed _ h (by simp)
        · rw [if_neg hrt]
          exact completeTask_inv N m tid .completed _ h (by simp)

/-- The invariant is preserved by session-status handling. -/
theorem handleSessionStatus_inv (N : Nat) (m : Manager) (et : String) (sid : Option String)
    (st : Option String) (fetch : Except String (List SessionMessage)) (h : Inv N m) :
    Inv N (handleSessionStatus m et sid st fetch) := by
  unfold handleSessionStatus
  by_cases he : et ≠ "session.status"
  · rw [if_pos he]
    exact h
  · rw [if_neg he]
    cases sid with
    | none => exact h
    | some s =>
      dsimp only
      cases hf : (m.tasksBySessionId.find? (fun p => p.1 = s)).map (fun p => p.2) with
      | none => exact h
      | some tid =>
        dsimp only
        cases hl : lookupTask m tid with
        | none => exact h
        | some t =>
          dsimp only
          by_cases hrun : t.status ≠ .running
          · rw [if_pos hrun]
            exact h
          · rw [if_neg hrun]
            by_cases hidle : st = some "idle"
            · rw [if_pos hidle]
              exact extractAndCompleteTask_inv N m tid fetch h
            · rw [if_neg hidle]
              exact h

/-- The invariant is preserved by waiter registration. -/
theorem registerWaiter_inv (N : Nat) (m : Manager) (tid : Nat) (h : Inv N m) :
    Inv N (registerWaiter m tid) := by
  unfold registerWaiter
  by_cases hc : m.completionResolvers.contains tid = true
  · simp only [hc, if_true]
    exact h
  · simp only [hc, if_false]
    exact ⟨h.max_eq, h.tasks_nodup, h.queue_nodup, h.flights_nodup, h.queue_flight_disjoint,
      h.starting_flight, h.flights_le, h.active_le, h.tasks_lt, h.queue_lt, h.flights_lt⟩

/-- The invariant is preserved by the wait-timeout callback. -/
theorem waitTimeoutFire_inv (N : Nat) (m : Manager) (tid : Nat) (h : Inv N m) :
    Inv N (waitTimeoutFire m tid) :=
  ⟨h.max_eq, h.tasks_nodup, h.queue_nodup, h.flights_nodup, h.queue_flight_disjoint,
    h.starting_flight, h.flights_le, h.active_le, h.tasks_lt, h.queue_lt, h.flights_lt⟩

/-- Removing the flights of a task strictly shrinks the flight list
when such a flight exists. -/
theorem filter_flights_length_lt (fl : List Flight) (tid : Nat)
    (hmem : ∃ f ∈ fl, f.taskId = tid) :
    (fl.filter (fun f => f.taskId ≠ tid)).length < fl.length := by
  induction fl with
  | nil =>
    obtain ⟨f, hf, -⟩ := hmem
    cases hf
  | cons g rest ih =>
    by_cases hg : g.taskId = tid
    · rw [List.filter_cons, if_neg (by simp [hg])]
      exact Nat.lt_succ_of_le (List.length_filter_le _ _)
    · rw [List.filter_cons, if_pos (by simp [hg])]
      have hrest : ∃ f ∈ rest, f.taskId = tid := by
        obtain ⟨f, hf, hft⟩ := hmem
        rcases List.mem_cons.mp hf with he | he
        · exact absurd (he ▸ hft) hg
        · exact ⟨f, he, hft⟩
      simpa using Nat.succ_lt_succ (ih hrest)

/-- The task-id column of the filtered flight list stays duplicate-free
and avoids the removed id. -/
theorem flights_filter_facts (fl : List Flight) (tid : Nat)
    (h : (fl.map Flight.taskId).Nodup) :
    ((fl.filter (fun f => f.taskId ≠ tid)).map Flight.taskId).Nodup ∧
    tid ∉ (fl.filter (fun f => f.taskId ≠ tid)).map Flight.taskId ∧
    (∀ x, x ∈ (fl.filter (fun f => f.taskId ≠ tid)).map Flight.taskId →
      x ∈ fl.map Flight.taskId) := by
  refine ⟨h.sublist ((List.filter_sublist fl).map Flight.taskId), ?_, ?_⟩
  · intro hmem
    obtain ⟨f, hf, hft⟩ := List.mem_map.mp hmem
    have := (List.mem_filter.mp hf).2
    simp [hft] at this
  · intro x hx
    obtain ⟨f, hf, hft⟩ := List.mem_map.mp hx
    exact hft ▸ List.mem_map_of_mem _ (List.mem_filter.mp hf).1

/-- A creating flight belonging to a task other than `tid` survives the
removal of `tid`'s flight. -/
theorem mem_filter_flights_of_ne (fl : List Flight) (tid tid2 : Nat) (ph : StartPhase)
    (hmem : Flight.mk tid2 ph ∈ fl) (hne : tid2 ≠ tid) :
    Flight.mk tid2 ph ∈ fl.filter (fun f => f.taskId ≠ tid) :=
  List.mem_filter.mpr ⟨hmem, by simpa using hne⟩

/-- Invariant for the shared failure path of the start sequence: the
task's flight is removed, the task is failed, and the `finally` block
decrements the counter and re-processes the queue. -/
theorem failed_finish_inv (N : Nat) (m mX : Manager) (tid : Nat) (msg : String)
    (h : Inv N m) (hmem : ∃ f ∈ m.flights, f.taskId = tid)
    (hq : mX.startQueue = m.startQueue)
    (hfl : mX.flights = m.flights.filter (fun f => f.taskId ≠ tid))
    (hact : mX.activeStarts = m.activeStarts)
    (hmax : mX.maxConcurrentStarts = m.maxConcurrentStarts)
    (hnext : mX.nextId = m.nextId)
    (hmap : mX.tasks.map (fun p => p.1) = m.tasks.map (fun p => p.1))
    (hstat : ∀ p ∈ mX.tasks, p.2.status = TaskStatus.starting → p.1 ≠ tid →
      ∃ q, q ∈ m.tasks ∧ p.1 = q.1 ∧ q.2.status = TaskStatus.starting) :
    Inv N (finishStart (completeTask mX tid .failed msg)) := by
  obtain ⟨cq, cfl, cact, cmax, cnext, cmap⟩ := completeTask_skeleton mX tid .failed msg
  obtain ⟨fn1, fn2, fn3⟩ := flights_filter_facts m.flights tid h.flights_nodup
  have hltfl := filter_flights_length_lt m.flights tid hmem
  apply finishStart_inv
  · refine ⟨?_, ?_, ?_, ?_, ?_, ?_, ?_, ?_, ?_, ?_, ?_⟩
    · rw [cmax, hmax]; exact h.max_eq
    · rw [cmap, hmap]; exact h.tasks_nodup
    · rw [cq, hq]; exact h.queue_nodup
    · rw [cfl, hfl]; exact fn1
    · intro t ht
      rw [cfl, hfl]
      rw [cq, hq] at ht
      intro hmem2
      exact h.queue_flight_disjoint t ht (fn3 t hmem2)
    · intro p hp hs
      have hnd : (mX.tasks.map (fun p => p.1)).Nodup := by
        rw [hmap]; exact h.tasks_nodup
      obtain ⟨hpX, hne⟩ :=
        completeTask_starting_mem mX tid .failed msg hnd (by simp) p hp hs
      obtain ⟨q, hqm, hq1, hqs⟩ := hstat p hpX hs hne
      rw [cfl, hfl, hq1]
      exact mem_filter_flights_of_ne _ _ _ _ (h.starting_flight q hqm hqs) (hq1 ▸ hne)
    · rw [cfl, hfl, cact, hact]
      have := h.flights_le
      omega
    · rw [cact, hact, cmax, hmax]; exact h.active_le
    · intro p hp
      rw [cnext, hnext]
      have : p.1 ∈ m.tasks.map (fun r => r.1) := by
        rw [← hmap, ← cmap]
        exact List.mem_map_of_mem _ hp
      obtain ⟨q, hqm, hq1⟩ := List.mem_map.mp this
      exact hq1 ▸ h.tasks_lt q hqm
    · intro t ht
      rw [cnext, hnext]
      rw [cq, hq] at ht
      exact h.queue_lt t ht
    · intro f hf
      rw [cnext, hnext]
      rw [cfl, hfl] at hf
      exact h.flights_lt f (List.mem_filter.mp hf).1
  · rw [cfl, hfl, cact, hact]
    have := h.flights_le
    omega

/-- Invariant for the state that replaces a task's flight by its next
prompting flight. -/
theorem attempt_flight_inv (N : Nat) (m mX : Manager) (tid : Nat) (ph : StartPhase)
    (h : Inv N m) (hmem : ∃ f ∈ m.flights, f.taskId = tid)
    (hq : mX.startQueue = m.startQueue)
    (hfl : mX.flights = m.flights.filter (fun f => f.taskId ≠ tid) ++ [⟨tid, ph⟩])
    (hact : mX.activeStarts = m.activeStarts)
    (hmax : mX.maxConcurrentStarts = m.maxConcurrentStarts)
    (hnext : mX.nextId = m.nextId)
    (hmap : mX.tasks.map (fun p => p.1) = m.tasks.map (fun p => p.1))
    (hstat : ∀ p ∈ mX.tasks, p.2.status = TaskStatus.starting → p.1 ≠ tid →
      ∃ q, q ∈ m.tasks ∧ p.1 = q.1 ∧ q.2.status = TaskStatus.starting)
    (hnotid : ∀ p ∈ mX.tasks, p.1 = tid → p.2.status ≠ TaskStatus.starting) :
    Inv N mX := by
  obtain ⟨fn1, fn2, fn3⟩ := flights_filter_facts m.flights tid h.flights_nodup
  have hltfl := filter_flights_length_lt m.flights tid hmem
  have htidmem : tid ∈ m.flights.map Flight.taskId := by
    obtain ⟨f, hf, hft⟩ := hmem
    exact hft ▸ List.mem_map_of_mem _ hf
  refine ⟨?_, ?_, ?_, ?_, ?_, ?_, ?_, ?_, ?_, ?_, ?_⟩
  · rw [hmax]; exact h.max_eq
  · rw [hmap]; exact h.tasks_nodup
  · rw [hq]; exact h.queue_nodup
  · rw [hfl, List.map_append]
    refine (List.nodup_append).mpr ⟨fn1, by simp, ?_⟩
    intro a ha
    simp only [List.map_cons, List.map_nil, List.mem_singleton]
    intro he
    exact fn2 (he ▸ ha)
  · intro t ht
    rw [hfl, List.map_append]
    rw [hq] at ht
    intro hmem2
    rcases List.mem_append.mp hmem2 with h2 | h2
    · exact h.queue_flight_disjoint t ht (fn3 t h2)
    · simp only [List.map_cons, List.map_nil, List.mem_singleton] at h2
      exact h.queue_flight_disjoint t ht (h2 ▸ htidmem)
  · intro p hp hs
    by_cases hpt : p.1 = tid
    · exact absurd hs (hnotid p hp hpt)
    · obtain ⟨q, hqm, hq1, hqs⟩ := hstat p hp hs hpt
      rw [hfl, hq1]
      exact List.mem_append.mpr (Or.inl
        (mem_filter_flights_of_ne _ _ _ _ (h.starting_flight q hqm hqs) (hq1 ▸ hpt)))
  · rw [hfl, hact]
    have := h.flights_le
    simp only [List.length_append, List.length_singleton]
    omega
  · rw [hact, hmax]; exact h.active_le
  · intro p hp
    rw [hnext]
    have : p.1 ∈ m.tasks.map (fun r => r.1) := by
      rw [← hmap]
      exact List.mem_map_of_mem _ hp
    obtain ⟨q, hqm, hq1⟩ := List.mem_map.mp this
    exact hq1 ▸ h.tasks_lt q hqm
  · intro t ht
    rw [hnext]
    rw [hq] at ht
    exact h.queue_lt t ht
  · intro f hf
    rw [hnext]
    rw [hfl] at hf
    rcases List.mem_append.mp hf with h2 | h2
    · exact h.flights_lt f (List.mem_filter.mp h2).1
    · rw [List.mem_singleton.mp h2]
      obtain ⟨g, hg, hgt⟩ := hmem
      exact hgt ▸ h.flights_lt g hg

/-- Invariant for resuming the fallback loop. -/
theorem startAttempting_inv (N : Nat) (m mX : Manager) (tid : Nat)
    (models : List (Option String)) (errors : List String)
    (h : Inv N m) (hmem : ∃ f ∈ m.flights, f.taskId = tid)
    (hq : mX.startQueue = m.startQueue)
    (hfl : mX.flights = m.flights.filter (fun f => f.taskId ≠ tid))
    (hact : mX.activeStarts = m.activeStarts)
    (hmax : mX.maxConcurrentStarts = m.maxConcurrentStarts)
    (hnext : mX.nextId = m.nextId)
    (hmap : mX.tasks.map (fun p => p.1) = m.tasks.map (fun p => p.1))
    (hstat : ∀ p ∈ mX.tasks, p.2.status = TaskStatus.starting → p.1 ≠ tid →
      ∃ q, q ∈ m.tasks ∧ p.1 = q.1 ∧ q.2.status = TaskStatus.starting)
    (hnotid : ∀ p ∈ mX.tasks, p.1 = tid → p.2.status ≠ TaskStatus.starting) :
    Inv N (startAttempting mX tid models errors) := by
  unfold startAttempting
  cases hpeel : peelAttempts models errors with
  | inl E =>
    exact failed_finish_inv N m mX tid _ h hmem hq hfl hact hmax hnext hmap hstat
  | inr trip =>
    obtain ⟨cur, rest, errs⟩ := trip
    dsimp only
    exact attempt_flight_inv N m _ tid (.prompting cur rest errs) h hmem hq
      (by rw [hfl]) hact hmax hnext hmap hstat hnotid

/-- Invariant for a start that finishes cleanly (successful prompt):
the flight is removed and the `finally` block runs. -/
theorem remove_finish_inv (N : Nat) (m : Manager) (tid : Nat)
    (h : Inv N m) (hmem : ∃ f ∈ m.flights, f.taskId = tid)
    (hnostart : ∀ p ∈ m.tasks, p.2.status = TaskStatus.starting → p.1 ≠ tid) :
    Inv N (finishStart (removeFlight m tid)) := by
  obtain ⟨fn1, fn2, fn3⟩ := flights_filter_facts m.flights tid h.flights_nodup
  have hltfl := filter_flights_length_lt m.flights tid hmem
  apply finishStart_inv
  · refine ⟨h.max_eq, h.tasks_nodup, h.queue_nodup, fn1, ?_, ?_, ?_, h.active_le,
      h.tasks_lt, h.queue_lt, ?_⟩
    · intro t ht
      intro hmem2
      exact h.queue_flight_disjoint t ht (fn3 t hmem2)
    · intro p hp hs
      exact mem_filter_flights_of_ne _ _ _ _ (h.starting_flight p hp hs) (hnostart p hp hs)
    · have := h.flights_le
      show (m.flights.filter (fun f => f.taskId ≠ tid)).length ≤ m.activeStarts
      omega
    · intro f hf
      exact h.flights_lt f (List.mem_filter.mp hf).1
  · show (m.flights.filter (fun f => f.taskId ≠ tid)).length ≤ m.activeStarts - 1
    have := h.flights_le
    omega

/-- With a duplicate-free flight column, two flights of the same task
cannot coexist: a task holding a prompting flight is not `starting`. -/
theorem no_starting_of_prompting (m : Manager) (h : Inv N m) (tid : Nat)
    (cur : Option String) (rest : List (Option String)) (errors : List String)
    (hmem : Flight.mk tid (.prompting cur rest errors) ∈ m.flights) :
    ∀ p ∈ m.tasks, p.2.status = TaskStatus.starting → p.1 ≠ tid := by
  intro p hp hs hpt
  have hcr : Flight.mk p.1 StartPhase.creating ∈ m.flights := h.starting_flight p hp hs
  have hinj := List.inj_on_of_nodup_map h.flights_nodup
  have := hinj hcr (hpt ▸ hmem) (by simp [hpt])
  cases this

/-- The invariant is preserved by the resolution of `session.create`. -/
theorem stepCreateResolved_inv (N : Nat) (m : Manager) (tid : Nat)
    (res : Except String (Option String)) (h : Inv N m)
    (hmem : Flight.mk tid StartPhase.creating ∈ m.flights) :
    Inv N (stepCreateResolved m tid res) := by
  have hex : ∃ f ∈ m.flights, f.taskId = tid := ⟨_, hmem, rfl⟩
  unfold stepCreateResolved removeFlight
  cases res with
  | error msg =>
    exact failed_finish_inv N m _ tid msg h hex rfl rfl rfl rfl rfl rfl
      (fun p hp hs _ => ⟨p, hp, rfl, hs⟩)
  | ok osid =>
    cases osid with
    | none =>
      exact failed_finish_inv N m _ tid _ h hex rfl rfl rfl rfl rfl rfl
        (fun p hp hs _ => ⟨p, hp, rfl, hs⟩)
    | some sid =>
      dsimp only
      refine startAttempting_inv N m _ tid _ _ h hex ?_ ?_ ?_ ?_ ?_ ?_ ?_ ?_
      · rfl
      · rfl
      · rfl
      · rfl
      · rfl
      · rw [updateTask_map_fst]
        dsimp only
        rw [updateTask_map_fst]
      · intro p hp hs hne
        obtain ⟨q2, hq2, hpq2⟩ := mem_updateTask _ tid _ p hp
        have hq2ne : q2.1 ≠ tid := by
          intro he
          rw [hpq2] at hne
          exact hne (by simpa using he)
        rw [hpq2] at hs
        simp only [hq2ne, if_false] at hs
        have hq2mem : q2 ∈ (updateTask { m with
            flights := m.flights.filter (fun f => f.taskId ≠ tid) } tid
            (fun t => { t with sessionId := some sid })).tasks := hq2
        obtain ⟨q, hq, hpq⟩ := mem_updateTask _ tid _ q2 hq2mem
        have hqne : q.1 ≠ tid := by
          intro he
          rw [hpq] at hq2ne
          exact hq2ne (by simpa using he)
        refine ⟨q, hq, ?_, ?_⟩
        · rw [hpq2, hpq]
        · rw [hpq] at hs
          simpa [hqne] using hs
      · intro p hp hpt
        obtain ⟨q2, hq2, hpq2⟩ := mem_updateTask _ tid _ p hp
        have : q2.1 = tid := by
          rw [hpq2] at hpt
          simpa using hpt
        rw [hpq2]
        simp [this]

/-- The invariant is preserved by the resolution of a prompt attempt. -/
theorem stepPromptResolved_inv (N : Nat) (m : Manager) (tid : Nat) (cur : Option String)
    (rest : List (Option String)) (errors : List String) (outcome : AttemptOutcome)
    (h : Inv N m)
    (hmem : Flight.mk tid (StartPhase.prompting cur rest errors) ∈ m.flights) :
    Inv N (stepPromptResolved m tid cur rest errors outcome) := by
  have hex : ∃ f ∈ m.flights, f.taskId = tid := ⟨_, hmem, rfl⟩
  have hnostart := no_starting_of_prompting m h tid cur rest errors hmem
  unfold stepPromptResolved removeFlight
  cases outcome with
  | success => exact remove_finish_inv N m tid h hex hnostart
  | failure msg =>
    dsimp only
    refine startAttempting_inv N m _ tid _ _ h hex ?_ ?_ ?_ ?_ ?_ ?_ ?_ ?_
    · rfl
    · rfl
    · rfl
    · rfl
    · rfl
    · rfl
    · intro p hp hs hne
      exact ⟨p, hp, rfl, hs⟩
    · intro p hp hpt
      exact fun hs => hnostart p hp hs hpt

/-- The fresh manager satisfies the invariant. -/
theorem init_inv (cfg : PluginConfig) (tmux : Bool) (N : Nat) :
    Inv N (initManager cfg tmux N) := by
  refine ⟨rfl, ?_, ?_, ?_, ?_, ?_, ?_, ?_, ?_, ?_, ?_⟩ <;> simp [initManager]

/-- Every step of the orchestrator preserves the invariant. -/
theorem step_inv (N : Nat) (m m2 : Manager) (h : Inv N m) (hs : Step m m2) : Inv N m2 := by
  cases hs with
  | launch opts => exact launch_inv N m opts h
  | cancel taskId => exact cancel_inv N m taskId h
  | sessionDeleted sid => exact handleSessionDeleted_inv N m sid h
  | sessionStatus et sid st fetch => exact handleSessionStatus_inv N m et sid st fetch h
  | createResolved tid res hf => exact stepCreateResolved_inv N m tid res h hf
  | promptResolved tid cur rest errors outcome hf =>
    exact stepPromptResolved_inv N m tid cur rest errors outcome h hf
  | waitRegister tid hw => exact registerWaiter_inv N m tid h
  | waitTimeout tid => exact waitTimeoutFire_inv N m tid h

/-- Every reachable state satisfies the invariant. -/
theorem reachable_inv (cfg : PluginConfig) (tmux : Bool) (N : Nat) (m : Manager)
    (h : Reachable (initManager cfg tmux N) m) : Inv N m := by
  induction h with
  | refl => exact init_inv cfg tmux N
  | tail hsteps hstep ih => exact step_inv N _ _ ih hstep

/-- The `starting` ids are duplicate-free under the invariant's id
column condition. -/
theorem startingIds_nodup (m : Manager) (hnd : (m.tasks.map (fun p => p.1)).Nodup) :
    (startingIds m).Nodup := by
  unfold startingIds
  exact hnd.sublist ((List.filter_sublist m.tasks).map (fun p => p.1))

/-- The count of `starting` tasks is the length of their id list. -/
theorem countStarting_eq_length (m : Manager) : countStarting m = (startingIds m).length := by
  unfold countStarting startingIds
  rw [List.length_map]

/-- With duplicate-free ids, a task's status reads `starting` exactly
when its id is among the starting ids. -/
theorem statusOf_starting_iff (m : Manager) (hnd : (m.tasks.map (fun p => p.1)).Nodup)
    (tid : Nat) : statusOf m tid = some TaskStatus.starting ↔ tid ∈ startingIds m := by
  constructor
  · intro hst
    simp only [statusOf, lookupTask] at hst
    cases hfind : m.tasks.find? (fun p => p.1 = tid) with
    | none =>
      rw [hfind] at hst
      cases hst
    | some a =>
      rw [hfind] at hst
      have ha1 : a.1 = tid := by simpa using List.find?_some hfind
      have hamem := List.mem_of_find?_eq_some hfind
      have hstat : a.2.status = .starting := by simpa using hst
      unfold startingIds
      exact ha1 ▸ List.mem_map_of_mem _ (List.mem_filter.mpr ⟨hamem, by simp [hstat]⟩)
  · intro hmem
    unfold startingIds at hmem
    obtain ⟨p, hp, hp1⟩ := List.mem_map.mp hmem
    have hpf := List.mem_filter.mp hp
    have hlu := lookupTask_unique m hnd p hpf.1
    have hstat : p.2.status = .starting := by simpa using hpf.2
    simp only [statusOf]
    rw [hp1] at hlu
    rw [hlu]
    simp [hstat]

/-- Under the invariant, at most `N` tasks are `starting`. -/
theorem countStarting_le_of_inv (N : Nat) (m : Manager) (h : Inv N m) :
    countStarting m ≤ N := by
  classical
  have h1 : (startingIds m).Nodup := startingIds_nodup m h.tasks_nodup
  have hsub : ∀ x ∈ startingIds m, x ∈ m.flights.map Flight.taskId := by
    intro x hx
    obtain ⟨p, hp, hp1⟩ := List.mem_map.mp hx
    have hpf := List.mem_filter.mp hp
    have hstat : p.2.status = .starting := by simpa using hpf.2
    have hmemf := h.starting_flight p hpf.1 hstat
    have : p.1 ∈ m.flights.map Flight.taskId := by
      simpa using List.mem_map_of_mem Flight.taskId hmemf
    exact hp1 ▸ this
  calc countStarting m = (startingIds m).length := countStarting_eq_length m
    _ = (startingIds m).toFinset.card := (List.toFinset_card_of_nodup h1).symm
    _ ≤ (m.flights.map Flight.taskId).toFinset.card := by
        apply Finset.card_le_card
        intro x hx
        exact List.mem_toFinset.mpr (hsub x (List.mem_toFinset.mp hx))
    _ ≤ (m.flights.map Flight.taskId).length := List.toFinset_card_le _
    _ = m.flights.length := List.length_map _ _
    _ ≤ m.activeStarts := h.flights_le
    _ ≤ N := h.max_eq ▸ h.active_le

/-- Claim C5 (confirmed): with concurrency ceiling `N`, every reachable
state of the orchestrator's step relation has at most `N` tasks in
`starting` status; and a step that puts a new task into `starting` while
`N` tasks are already `starting` necessarily takes one of them out of
`starting` — the `(N+1)`-th task enters `starting` only after one of the
first `N` has left it. -/
theorem starting_respects_ceiling (cfg : PluginConfig) (tmux : Bool) (N : Nat) (m : Manager)
    (h : Reachable (initManager cfg tmux N) m) :
    countStarting m ≤ N ∧
    (∀ m2 tid, Step m m2 → statusOf m2 tid = some TaskStatus.starting →
      statusOf m tid ≠ some TaskStatus.starting → countStarting m = N →
      ∃ tid2, statusOf m tid2 = some TaskStatus.starting ∧
        statusOf m2 tid2 ≠ some TaskStatus.starting) := by
  classical
  have hinv := reachable_inv cfg tmux N m h
  refine ⟨countStarting_le_of_inv N m hinv, ?_⟩
  intro m2 tid hstep hnew hold hcount
  have hinv2 := step_inv N m m2 hinv hstep
  by_contra hno
  push_neg at hno
  have hsub : ∀ x ∈ startingIds m, x ∈ startingIds m2 := by
    intro x hx
    exact (statusOf_starting_iff m2 hinv2.tasks_nodup x).mp
      (hno x ((statusOf_starting_iff m hinv.tasks_nodup x).mpr hx))
  have htid : tid ∈ startingIds m2 := (statusOf_starting_iff m2 hinv2.tasks_nodup tid).mp hnew
  have htidn : tid ∉ startingIds m := fun hmem =>
    hold ((statusOf_starting_iff m hinv.tasks_nodup tid).mpr hmem)
  have hcard1 : (startingIds m).toFinset.card = N := by
    rw [List.toFinset_card_of_nodup (startingIds_nodup m hinv.tasks_nodup),
      ← countStarting_eq_length, hcount]
  have hsubF : insert tid (startingIds m).toFinset ⊆ (startingIds m2).toFinset := by
    intro x hx
    rcases Finset.mem_insert.mp hx with he | hxm
    · exact he ▸ List.mem_toFinset.mpr htid
    · exact List.mem_toFinset.mpr (hsub x (List.mem_toFinset.mp hxm))
  have hcard2 : (insert tid (startingIds m).toFinset).card = N + 1 := by
    rw [Finset.card_insert_of_not_mem (fun hmem => htidn (List.mem_toFinset.mp hmem)), hcard1]
  have hle : N + 1 ≤ countStarting m2 := by
    calc N + 1 = (insert tid (startingIds m).toFinset).card := hcard2.symm
      _ ≤ (startingIds m2).toFinset.card := Finset.card_le_card hsubF
      _ ≤ (startingIds m2).length := List.toFinset_card_le _
      _ = countStarting m2 := (countStarting_eq_length m2).symm
  have := countStarting_le_of_inv N m2 hinv2
  omega

/-- Witness: with ceiling 1, after launching two tasks only task 0 is
`starting` (task 1 queued); the step in which task 0's start fails and
the queue is re-processed puts task 1 into `starting`, and the theorem
yields a task (task 0) that left `starting` in that same step. -/
theorem starting_respects_ceiling_witness :
    countStarting ceilM2 ≤ 1 ∧
    (∃ tid2, statusOf ceilM2 tid2 = some TaskStatus.starting ∧
      statusOf ceilM3 tid2 ≠ some TaskStatus.starting) := by
  have hreach : Reachable (initManager cfgDefault false 1) ceilM2 :=
    Relation.ReflTransGen.tail
      (Relation.ReflTransGen.tail Relation.ReflTransGen.refl (Step.launch _ optsA))
      (Step.launch _ optsA)
  have hmain := starting_respects_ceiling cfgDefault false 1 ceilM2 hreach
  exact ⟨hmain.1,
    hmain.2 ceilM3 1 (Step.createResolved ceilM2 0 (Except.error "boom") (by decide))
      (by decide) (by decide) (by decide)⟩

/-- Claim C10 (confirmed): for every parent session and requested role,
`isAgentAllowed` returns true exactly when the role is a member of the
list returned by `getAllowedSubagents`; both resolve untracked sessions
to `orchestrator` and unknown roles through the same explorer-only
default, so the two operations are always mutually consistent. -/
theorem isAgentAllowed_iff_mem_getAllowedSubagents (m : Manager) (p r : String) :
    isAgentAllowed m p r = true ↔ r ∈ getAllowedSubagents m p := by
  simp only [isAgentAllowed, getAllowedSubagents]
  set A := getSubagentRules
    ((((m.agentBySessionId.find? (fun q => q.1 = p)).map (fun q => q.2)).getD "orchestrator"))
    with hA
  by_cases h : A.length = 0
  · have hnil : A = [] := List.length_eq_zero.mp h
    simp [h, hnil]
  · simp only [h, if_false]
    exact List.elem_iff

/-- Claim C9 (confirmed): a role whose configured delegation roster is
empty cannot delegate — `isAgentAllowed` is false for every requested
role when the parent session is owned by that role, and the tool
permission pair `(background_task, task)` computed for the role is
`(false, false)`. -/
theorem empty_roster_disables_delegation (m : Manager) (parent R X : String)
    (hR : ((m.agentBySessionId.find? (fun q => q.1 = parent)).map (fun q => q.2)) = some R)
    (hEmpty : SUBAGENT_DELEGATION_RULES R = some []) :
    isAgentAllowed m parent X = false ∧ calculateToolPermissions R = (false, false) := by
  have hrules : getSubagentRules R = [] := by simp [getSubagentRules, hEmpty]
  constructor
  · simp [isAgentAllowed, hR, hrules]
  · simp [calculateToolPermissions, hrules]

/-- Witness for the empty-roster claim at the `fixer` role. -/
theorem empty_roster_disables_delegation_witness :
    isAgentAllowed fixerMgr "s1" "oracle" = false ∧
    calculateToolPermissions "fixer" = (false, false) :=
  empty_roster_disables_delegation fixerMgr "s1" "fixer" "oracle" (by decide) (by decide)

/-- Claim C2 (code bug): invoking the start sequence on a task whose
status is already `cancelled` does not short-circuit. The status is
overwritten to `starting` immediately before the cancellation check, so
the check never fires: the counter is incremented, a `session.create`
flight begins, and no terminal cancelled handling (error, notification,
waiter resolution) occurs — contradicting the specified detect,
short-circuit and decrement behaviour. -/
theorem startTask_ignores_preexisting_cancelled_status :
    statusOf (startTaskEntry cancelledMgr 0) 0 = some .starting ∧
    (startTaskEntry cancelledMgr 0).activeStarts = 1 ∧
    (startTaskEntry cancelledMgr 0).flights = [⟨0, .creating⟩] ∧
    (lookupTask (startTaskEntry cancelledMgr 0) 0).map (fun t => t.error) = some none ∧
    (startTaskEntry cancelledMgr 0).resolutionLog = [] ∧
    (startTaskEntry cancelledMgr 0).notifyLog = [] := by decide

/-- Counterexample to claim C1 as stated: task 0 is cancelled while its
`session.create` is in flight (status `cancelled`, error
`Cancelled by user`); the resumed start sequence then overwrites the
status to `running`, and a later idle event completes the task with a
result — so later calls did change the status and result of a task that
had already reached the terminal `cancelled` state. -/
theorem cancelled_status_overwritten_by_startTask_resume :
    statusOf traceM2 0 = some .cancelled ∧
    (lookupTask traceM2 0).map (fun t => t.error) = some (some "Cancelled by user") ∧
    statusOf traceM3 0 = some .running ∧
    statusOf traceM4 0 = some .completed ∧
    (lookupTask traceM4 0).map (fun t => t.result) = some (some "A\n\nB") := by decide

/-- Claim C1 (corrected): once a task's status is `completed` or
`failed`, `completeTask` is a no-op — no later call changes its status,
result, or error (the state is returned unchanged). The `cancelled`
status is not protected by this guard: it can be overwritten by the
resumption of an in-flight start sequence or a later `completeTask`. -/
theorem completeTask_noop_on_completed_or_failed (m : Manager) (tid : Nat)
    (st : TaskStatus) (msg : String)
    (h : statusOf m tid = some .completed ∨ statusOf m tid = some .failed) :
    completeTask m tid st msg = m := by
  unfold completeTask
  cases hl : lookupTask m tid with
  | none => rfl
  | some t =>
    have ht : t.status = .completed ∨ t.status = .failed := by
      rcases h with h | h <;> rw [statusOf, hl] at h <;> simp at h <;> simp [h]
    simp [ht]

/-- Witness: `completeTask` with different arguments leaves a completed
task's state unchanged. -/
theorem completeTask_noop_witness :
    statusOf traceM4 0 = some .completed ∧ completeTask traceM4 0 .failed "boom" = traceM4 :=
  ⟨by decide, completeTask_noop_on_completed_or_failed traceM4 0 .failed "boom" (Or.inl (by decide))⟩

/-- Counterexample to claim C3 as stated: a waiter is registered on the
known, still-starting task 0; when the wait timeout fires, the waiting
promise is resolved with the task's current (non-terminal) record, not
with null. -/
theorem waitTimeout_returns_record_not_null :
    waitM1.completionResolvers = [0] ∧
    statusOf waitM1 0 = some .starting ∧
    (waitTimeoutFire waitM1 0).resolutionLog.map (fun e => (e.1, e.2.map (fun t => t.status)))
      = [(0, some .starting)] ∧
    (waitTimeoutFire waitM1 0).completionResolvers = [] := by decide

/-- Claim C3 (corrected): `waitForCompletion` returns the task record
immediately when the task is already terminal; when the timeout fires
first, the waiting promise is resolved with the task's current registry
record (possibly non-terminal), and with null exactly when the task id
is unknown. -/
theorem waitForCompletion_timeout_returns_current_record :
    (∀ m tid t, lookupTask m tid = some t →
      (t.status = .completed ∨ t.status = .failed ∨ t.status = .cancelled) →
      waitImmediateResult m tid = some (some t)) ∧
    (∀ m tid, (waitTimeoutFire m tid).resolutionLog
        = m.resolutionLog ++ [(tid, lookupTask m tid)]) ∧
    (∀ m tid, waitImmediateResult m tid = some none ↔ lookupTask m tid = none) := by
  refine ⟨?_, ?_, ?_⟩
  · intro m tid t hl ht
    simp [waitImmediateResult, hl, ht]
  · intro m tid
    rfl
  · intro m tid
    cases hl : lookupTask m tid with
    | none => simp [waitImmediateResult, hl]
    | some t =>
      by_cases ht : t.status = .completed ∨ t.status = .failed ∨ t.status = .cancelled <;>
        simp [waitImmediateResult, hl, ht]

/-- Witness for the corrected wait-for-completion behaviour. -/
theorem waitForCompletion_timeout_witness :
    waitImmediateResult doneMgr 5 = some (some doneTask) ∧
    (waitTimeoutFire waitM1 0).resolutionLog
      = waitM1.resolutionLog ++ [(0, lookupTask waitM1 0)] ∧
    (waitImmediateResult (initManager cfgDefault false 10) 7 = some none ↔
      lookupTask (initManager cfgDefault false 10) 7 = none) :=
  ⟨waitForCompletion_timeout_returns_current_record.1 doneMgr 5 doneTask (by decide) (by decide),
   waitForCompletion_timeout_returns_current_record.2.1 waitM1 0,
   waitForCompletion_timeout_returns_current_record.2.2 (initManager cfgDefault false 10) 7⟩

/-- Counterexample to claim C4 as stated: task 0 has a registered
waiter and is explicitly cancelled; the cancellation removes the waiter
without ever resolving it (the resolution log stays empty), so the
waiter is not resolved with the terminal task record. -/
theorem cancel_drops_waiter_without_resolving :
    waitM1.completionResolvers = [0] ∧
    statusOf waitM1 0 = some .starting ∧
    (cancel waitM1 (some 0)).2 = 1 ∧
    statusOf (cancel waitM1 (some 0)).1 0 = some .cancelled ∧
    (cancel waitM1 (some 0)).1.completionResolvers = [] ∧
    (cancel waitM1 (some 0)).1.resolutionLog = [] := by decide

/-- Claim C4 (corrected): a registered waiter is resolved with the
terminal record and removed exactly once on terminal transitions driven
by `completeTask` or by a session-deletion event (after which no waiter
remains, so no second resolution can occur); explicit cancellation,
however, removes the waiter first without resolving it, so the
subsequent terminal routine finds no waiter and the resolution log is
unchanged. -/
theorem waiter_resolution_amended :
    (∀ m tid t, lookupTask m tid = some t →
      (t.status = .pending ∨ t.status = .starting ∨ t.status = .running) →
      (cancel m (some tid)).1.resolutionLog = m.resolutionLog ∧
      (cancel m (some tid)).1.completionResolvers.contains tid = false) ∧
    (∀ m tid t st msg, lookupTask m tid = some t →
      ¬(t.status = .completed ∨ t.status = .failed) →
      m.completionResolvers.contains tid = true →
      (completeTask m tid st msg).resolutionLog
        = m.resolutionLog ++ [(tid, some (terminalize m.now t st msg))] ∧
      (completeTask m tid st msg).completionResolvers.contains tid = false) ∧
    (∀ m sid tid t, ((m.tasksBySessionId.find? (fun q => q.1 = sid)).map (fun q => q.2)) = some tid →
      lookupTask m tid = some t →
      (t.status = .running ∨ t.status = .pending) →
      m.completionResolvers.contains tid = true →
      (handleSessionDeleted m sid).resolutionLog
        = m.resolutionLog ++
          [(tid, some { t with status := .cancelled, completedAt := some m.now,
                               error := some "Session deleted" })] ∧
      (handleSessionDeleted m sid).completionResolvers.contains tid = false) ∧
    (∀ m tid st msg, m.completionResolvers.contains tid = false →
      (completeTask m tid st msg).resolutionLog = m.resolutionLog) := by
  refine ⟨?_, ?_, ?_, ?_⟩
  · intro m tid t hl hst
    have hstep : cancel m (some tid) =
        (completeTask
          (let m1 := { m with completionResolvers := m.completionResolvers.filter (fun x => x ≠ tid) }
           let m2 := updateTask m1 tid (fun u => { u with status := .cancelled })
           if t.status = .pending then { m2 with startQueue := m2.startQueue.erase tid } else m2)
          tid .cancelled "Cancelled by user", 1) := by
      simp only [cancel, cancelTaskStep, hl]
      rcases hst with h | h | h <;> simp [h]
    rw [hstep]
    set m3 :=
      (let m1 := { m with completionResolvers := m.completionResolvers.filter (fun x => x ≠ tid) }
       let m2 := updateTask m1 tid (fun u => { u with status := .cancelled })
       if t.status = .pending then { m2 with startQueue := m2.startQueue.erase tid } else m2)
      with hm3
    have hres : m3.completionResolvers = m.completionResolvers.filter (fun x => x ≠ tid) := by
      rw [hm3]
      by_cases hq : t.status = .pending <;> simp [updateTask, hq]
    have hlog : m3.resolutionLog = m.resolutionLog := by
      rw [hm3]
      by_cases hq : t.status = .pending <;> simp [updateTask, hq]
    have hnc : m3.completionResolvers.contains tid = false := by
      rw [hres]; exact contains_filter_ne_self _ _
    have h1 := completeTask_no_waiter m3 tid .cancelled "Cancelled by user" hnc
    exact ⟨h1.1.trans hlog, by rw [h1.2]; exact hnc⟩
  · intro m tid t st msg hl hg hc
    have h1 := completeTask_with_waiter m tid t st msg hl hg hc
    refine ⟨h1.1, ?_⟩
    rw [h1.2]; exact contains_filter_ne_self _ _
  · intro m sid tid t hIdx hl hst hc
    have hmem : tid ∈ m.completionResolvers := by simpa using hc
    unfold handleSessionDeleted
    rw [hIdx]
    simp only [hl]
    rcases hst with h | h <;>
      simp [h, updateTask, hmem, List.mem_filter]
  · intro m tid st msg hc
    exact (completeTask_no_waiter m tid st msg hc).1

/-- Witness for the amended waiter-resolution behaviour: at `runMgr` the
registered waiter on task 3 is resolved with the terminal record by
`completeTask`, while explicit cancellation at `waitM1` leaves the log
unchanged. -/
theorem waiter_resolution_amended_witness :
    ((completeTask runMgr 3 .completed "done").resolutionLog
      = runMgr.resolutionLog ++ [(3, some (terminalize runMgr.now runTask .completed "done"))] ∧
     (completeTask runMgr 3 .completed "done").completionResolvers.contains 3 = false) ∧
    ((cancel waitM1 (some 0)).1.resolutionLog = waitM1.resolutionLog) := by
  refine ⟨waiter_resolution_amended.2.1 runMgr 3 runTask .completed "done"
      (by decide) (by decide) (by decide), ?_⟩
  have h := waiter_resolution_amended.1 waitM1 0 ((lookupTask waitM1 0).getD cancelledTask)
  exact (h (by decide) (by decide)).1

end OMOS
